import Mathlib

/-!
Verification development for the koharu renderer core: a shallow embedding of
`src/koharu-renderer/src/hyphenation.rs` and `src/koharu-renderer/src/layout.rs`.

Strings are modelled as lists of characters; the byte offsets of the Rust code
become character offsets under this uniform re-indexing (none of the verified
properties depend on the width of the encoding).  `f32` arithmetic is modelled
over `ℚ`; the distinguished value `f32::INFINITY` that the layout code obtains
from `Option::unwrap_or` is modelled by keeping the `Option` and interpreting
`none` as infinity in each comparison.  External collaborators (the Knuth-Liang
hyphenation crate, the shaper, the line breaker, the font metric providers) are
parameters of the embedding, mirroring the interfaces the Rust code consumes.
-/

namespace Koharu

abbrev Str := List Char

/-! ## hyphenation.rs -/

/-- Embeds `is_word_punctuation` (hyphenation.rs:130): the set of word-boundary
punctuation characters stripped from words before hyphenation. -/
def isWordPunctuation (c : Char) : Bool :=
  c = '.' || c = ',' || c = '!' || c = '?' || c = ':' || c = ';' ||
  c = '"' || c = '\'' || c = '(' || c = ')' || c = '[' || c = ']' ||
  c = '{' || c = '}' || c = '«' || c = '»' || c = '„' ||
  c = '“' || c = '”' || c = '‘' || c = '’' ||
  c = '…' || c = '–' || c = '—'

/-- The Unicode `White_Space` property used by Rust's `char::is_whitespace`
and hence by `str::split_whitespace`. -/
def rustIsWhitespace (c : Char) : Bool :=
  c = '\u0009' || c = '\u000A' || c = '\u000B' || c = '\u000C' || c = '\u000D' ||
  c = '\u0020' || c = '\u0085' || c = '\u00A0' || c = '\u1680' ||
  c = '\u2000' || c = '\u2001' || c = '\u2002' || c = '\u2003' || c = '\u2004' ||
  c = '\u2005' || c = '\u2006' || c = '\u2007' || c = '\u2008' || c = '\u2009' ||
  c = '\u200A' || c = '\u2028' || c = '\u2029' || c = '\u202F' || c = '\u205F' ||
  c = '\u3000'

/-- `Iterator::position` for the predicate "not word punctuation": the index of
the first non-punctuation character, mirroring hyphenation.rs:170. -/
def positionNonPunct : Str → Option Nat
  | [] => none
  | c :: rest =>
    if isWordPunctuation c then (positionNonPunct rest).map (· + 1) else some 0

/-- `Iterator::rposition` for the predicate "not word punctuation": the index of
the last non-punctuation character, mirroring hyphenation.rs:176. -/
def rpositionNonPunct : Str → Option Nat
  | [] => none
  | c :: rest =>
    match rpositionNonPunct rest with
    | some i => some (i + 1)
    | none => if isWordPunctuation c then none else some 0

/-- Embeds `strip_punctuation` (hyphenation.rs:161-192).  Returns
`(leading punctuation, clean word, trailing punctuation)`. -/
def stripPunctuation (word : Str) : Str × Str × Str :=
  let len := word.length
  if len = 0 then ([], [], [])
  else
    let start := (positionNonPunct word).getD len
    let stop := ((rpositionNonPunct word).map (· + 1)).getD 0
    if stop ≤ start then (word, [], [])
    else (word.take start, (word.drop start).take (stop - start), word.drop stop)

/-- The external Knuth-Liang hyphenator (the `hyphenation` crate's
`Standard::hyphenate(..).iter()`), modelled as the list of segments it yields
for a word.  The repository's code is written against exactly this interface. -/
structure WordHyphenator where
  hyphenate : Str → List Str

/-- `segment.trim_end_matches('-')` (hyphenation.rs:47). -/
def cleanSegment (s : Str) : Str :=
  (s.reverse.dropWhile (fun c => c = '-')).reverse

/-- The `for segment in &breaks[..breaks.len() - 1]` accumulation loop of
`hyphenation_points` (hyphenation.rs:44-50): running character position after
each cleaned segment. -/
def hyphenationPointsGo (pos : Nat) : List Str → List Nat
  | [] => []
  | s :: rest =>
    let pos2 := pos + (cleanSegment s).length
    pos2 :: hyphenationPointsGo pos2 rest

/-- Embeds `WordHyphenator::hyphenation_points` (hyphenation.rs:33-53). -/
def hyphenationPoints (h : WordHyphenator) (word : Str) : List Nat :=
  let brs := h.hyphenate word
  if brs.length ≤ 1 then []
  else hyphenationPointsGo 0 (brs.take (brs.length - 1))

/-- Rust's `Iterator::min_by_key` on a nonempty list (first minimal element
wins on ties), as used at hyphenation.rs:68-70. -/
def minByKeyFirst (key : Nat → Nat) (x : Nat) (xs : List Nat) : Nat :=
  xs.foldl (fun acc y => if key y < key acc then y else acc) x

/-- Embeds `WordHyphenator::find_split_point` (hyphenation.rs:58-71): the
hyphenation point closest to `chars(word) / 2`, earliest on ties. -/
def findSplitPoint (h : WordHyphenator) (word : Str) : Option Nat :=
  let points := hyphenationPoints h word
  match points with
  | [] => none
  | p :: ps =>
    let target := word.length / 2
    some (minByKeyFirst (fun pos => ((pos : Int) - (target : Int)).natAbs) p ps)

/-- `str::split_whitespace` worker: `acc` holds the characters of the token
currently being read, in reverse. -/
def splitWhitespaceGo (acc : Str) : Str → List Str
  | [] => if acc.isEmpty then [] else [acc.reverse]
  | c :: rest =>
    if rustIsWhitespace c then
      if acc.isEmpty then splitWhitespaceGo [] rest
      else acc.reverse :: splitWhitespaceGo [] rest
    else splitWhitespaceGo (c :: acc) rest

/-- `text.split_whitespace()`: maximal whitespace-free tokens of `text`. -/
def splitWhitespace (text : Str) : List Str :=
  splitWhitespaceGo [] text

/-- Embeds `find_longest_word` (hyphenation.rs:82-87).  Rust's `max_by_key`
returns the last of several equally maximal elements, hence the `≤`. -/
def findLongestWord (text : Str) : Str :=
  ((splitWhitespace text).foldl
    (fun acc w =>
      match acc with
      | none => some w
      | some b => if b.length ≤ w.length then some w else some b)
    none).getD []

/-- Decides whether `pat` is a leading segment of `l`. -/
def isLeading : Str → Str → Bool
  | [], _ => true
  | _ :: _, [] => false
  | a :: as_, b :: bs => a = b && isLeading as_ bs

/-- The index of the first occurrence of `pat` inside `text`, if any: the
match position used by `str::replacen(pat, _, 1)`. -/
def firstMatchIdx (pat : Str) : Str → Option Nat
  | [] => if pat.isEmpty then some 0 else none
  | c :: rest =>
    if isLeading pat (c :: rest) then some 0
    else (firstMatchIdx pat rest).map (· + 1)

/-- `text.replacen(pat, repl, 1)` (hyphenation.rs:126): replace the first
occurrence of `pat` in `text` by `repl`, or return `text` unchanged. -/
def replaceFirst (pat repl : Str) : Str → Str
  | [] => if pat.isEmpty then repl else []
  | c :: rest =>
    if isLeading pat (c :: rest) then repl ++ (c :: rest).drop pat.length
    else c :: replaceFirst pat repl rest

/-- Embeds `split_longest_word` (hyphenation.rs:94-127). -/
def splitLongestWord (text word : Str) (h : WordHyphenator) : Str :=
  if word.isEmpty then text
  else
    let pcs := stripPunctuation word
    let pfx := pcs.1
    let cleanWord := pcs.2.1
    let sfx := pcs.2.2
    if cleanWord.isEmpty || cleanWord.length < 2 then text
    else
      match findSplitPoint h cleanWord with
      | none => text
      | some splitPos =>
        if splitPos = 0 || cleanWord.length ≤ splitPos then text
        else
          let part1 := cleanWord.take splitPos
          let part2 := cleanWord.drop splitPos
          let replacement := pfx ++ part1 ++ ['-', ' '] ++ part2 ++ sfx
          replaceFirst word replacement text

/-! ## layout.rs -/

/-- Embeds `WritingMode` (layout.rs:25-31). -/
inductive WritingMode where
  | horizontal
  | verticalRl
deriving DecidableEq

/-- Embeds `WritingMode::is_vertical` (layout.rs:35-37). -/
def WritingMode.isVertical : WritingMode → Bool
  | .horizontal => false
  | .verticalRl => true

/-- A shaped glyph as produced by the external shaper (cluster is an offset
into the text; advances and offsets are scaled design units). -/
structure PositionedGlyph where
  glyphId : Nat
  fontId : Nat
  cluster : Nat
  xAdvance : ℚ
  yAdvance : ℚ
  xOffset : ℚ
  yOffset : ℚ
deriving DecidableEq

/-- The shaper's output for one segment: glyphs plus aggregate advances. -/
structure ShapedRun where
  glyphs : List PositionedGlyph
  xAdvance : ℚ
  yAdvance : ℚ
deriving DecidableEq

/-- A Unicode line-break opportunity: byte offset and mandatory flag. -/
structure BreakOp where
  offset : Nat
  isMandatory : Bool
deriving DecidableEq

/-- Embeds `LayoutLine` (layout.rs:51-60); the `range` field is split into its
two endpoints. -/
structure LayoutLine where
  glyphs : List PositionedGlyph
  rangeStart : Nat
  rangeEnd : Nat
  advance : ℚ
  baselineX : ℚ
  baselineY : ℚ
deriving DecidableEq

/-- `LayoutLine::default()`. -/
def lineDefault : LayoutLine :=
  { glyphs := [], rangeStart := 0, rangeEnd := 0, advance := 0,
    baselineX := 0, baselineY := 0 }

/-- Embeds `LayoutRun` (layout.rs:64-73). -/
structure LayoutRun where
  lines : List LayoutLine
  width : ℚ
  height : ℚ
  fontSize : ℚ
deriving DecidableEq

/-- Font metrics at a given size, as read from the primary font
(layout.rs:247-249); `descent` is stored in the font convention (negative). -/
structure FontMetrics where
  ascent : ℚ
  descent : ℚ
  leading : ℚ

/-- Per-glyph ink bounds in Y-up font design space. -/
structure GlyphRect where
  xMin : ℚ
  yMin : ℚ
  xMax : ℚ
  yMax : ℚ
deriving DecidableEq

/-- The configuration and external collaborators a `TextLayout` closes over:
writing mode, extent constraints, the font metric provider, the line breaker,
the shaper (with fallbacks and vertical features baked in), and the per-font
glyph-metrics provider used by `ink_bounds`.  `fontOk f` models whether
`font.skrifa()` succeeds for font `f`; `glyphBoundsAt size f gid` models
`glyph_metrics(size).bounds(gid)`. -/
structure LayoutEnv where
  mode : WritingMode
  maxWidth : Option ℚ
  maxHeight : Option ℚ
  metricsAt : ℚ → FontMetrics
  lineBreaks : Str → List BreakOp
  shape : Str → ℚ → ShapedRun
  fontOk : Nat → Bool
  glyphBoundsAt : ℚ → Nat → Nat → Option GlyphRect

/-- `v > m` against an optional bound, `none` standing for `f32::INFINITY`. -/
def gtOpt (v : ℚ) : Option ℚ → Bool
  | none => false
  | some m => decide (m < v)

/-- `v ≤ m` against an optional bound, `none` standing for `f32::INFINITY`. -/
def leOpt (v : ℚ) : Option ℚ → Bool
  | none => true
  | some m => decide (v ≤ m)

/-- State of the line-composition loop of `run_with_size` (layout.rs:277-279):
finished lines, the line being built, and the text offset where it started. -/
structure ComposeState where
  lines : List LayoutLine
  current : LayoutLine
  lineOffset : Nat
deriving DecidableEq

/-- `breaks.windows(2)` as a list of pairs. -/
def windowPairs (l : List BreakOp) : List (BreakOp × BreakOp) :=
  l.zip l.tail

/-- One iteration of the `for window in breaks.windows(2)` loop of
`run_with_size` (layout.rs:281-321): finalize the current line on a mandatory
break or overflow (only when it has content), then append the segment's
glyphs with globalized cluster indices. -/
def composeStep (isVert : Bool) (maxExtent : Option ℚ) (text : Str)
    (shape : Str → ShapedRun) (st : ComposeState) (w : BreakOp × BreakOp) :
    ComposeState :=
  let start := w.1.offset
  let stop := w.2.offset
  let segment := (text.drop start).take (stop - start)
  let shaped := shape segment
  let adv := if isVert then shaped.yAdvance else shaped.xAdvance
  let wouldOverflow :=
    if isVert then gtOpt (|st.current.advance| + |adv|) maxExtent
    else gtOpt (st.current.advance + adv) maxExtent
  let hasContent := !st.current.glyphs.isEmpty
  let isMand := w.2.isMandatory
  let st2 :=
    if (isMand || wouldOverflow) && hasContent then
      { lines := st.lines ++
          [{ st.current with rangeStart := st.lineOffset, rangeEnd := start }],
        current := lineDefault,
        lineOffset := start }
    else st
  let newGlyphs := shaped.glyphs.map (fun g => { g with cluster := g.cluster + start })
  { st2 with current :=
      { st2.current with glyphs := st2.current.glyphs ++ newGlyphs,
                         advance := st2.current.advance + adv } }

/-- The full composition pass of `run_with_size` (layout.rs:277-327),
including the finalization of the trailing non-empty line. -/
def composeLines (isVert : Bool) (maxExtent : Option ℚ) (text : Str)
    (shape : Str → ShapedRun) (brs : List BreakOp) : List LayoutLine :=
  let st := (windowPairs brs).foldl (composeStep isVert maxExtent text shape)
    { lines := [], current := lineDefault, lineOffset := 0 }
  if st.current.glyphs.isEmpty then st.lines
  else st.lines ++
    [{ st.current with rangeStart := st.lineOffset, rangeEnd := text.length }]

/-- The `enumerate` loop placing baselines (layout.rs:331-343), with `n` the
total line count and `i` the index of the head of the remaining list. -/
def placeBaselinesGo (isVert : Bool) (ascent lineHeight : ℚ) (n : Nat) :
    Nat → List LayoutLine → List LayoutLine
  | _, [] => []
  | i, l :: ls =>
    (if isVert then
      { l with baselineX := (((n - 1 : Nat) : ℚ) - (i : ℚ)) * lineHeight
                              + lineHeight * (1 / 2),
               baselineY := ascent }
    else
      { l with baselineX := 0, baselineY := ascent + (i : ℚ) * lineHeight })
    :: placeBaselinesGo isVert ascent lineHeight n (i + 1) ls

/-- Embeds the baseline placement of `run_with_size` (layout.rs:331-343). -/
def placeBaselines (isVert : Bool) (ascent lineHeight : ℚ)
    (lines : List LayoutLine) : List LayoutLine :=
  placeBaselinesGo isVert ascent lineHeight lines.length 0 lines

/-- Embeds `TextLayout::compute_bounds` (layout.rs:375-402): the coarse
advance-based width/height used when no glyph yields ink bounds. -/
def computeBounds (isVert : Bool) (lines : List LayoutLine)
    (lineHeight descent : ℚ) : ℚ × ℚ :=
  match lines with
  | [] => (0, 0)
  | l0 :: _ =>
    if isVert then
      ((lines.length : ℚ) * lineHeight,
       lines.foldl (fun m l => max m |l.advance|) 0 + l0.baselineY + descent)
    else
      (lines.foldl (fun m l => max m l.advance) 0,
       ((lines.length - 1 : Nat) : ℚ) * lineHeight + l0.baselineY + descent)

/-- One glyph of the `ink_bounds` walk (layout.rs:414-448).  The state is the
accumulated min/max rectangle (`none` when nothing contributed yet, modelling
the `f32::INFINITY` initial values) and the pen position.  A glyph whose
font's metrics provider cannot be obtained, or whose bounds query returns
`None`, leaves the rectangle untouched; the pen always advances by
`(+x_advance, -y_advance)`. -/
def inkStep (fontOk : Nat → Bool) (boundsAt : ℚ → Nat → Nat → Option GlyphRect)
    (fontSize : ℚ) (st : Option GlyphRect × ℚ × ℚ) (g : PositionedGlyph) :
    Option GlyphRect × ℚ × ℚ :=
  let rect := st.1
  let x := st.2.1
  let y := st.2.2
  let rect2 :=
    if fontOk g.fontId then
      match boundsAt fontSize g.fontId g.glyphId with
      | none => rect
      | some b =>
        let x0 := x + g.xOffset + b.xMin
        let x1 := x + g.xOffset + b.xMax
        let y0 := (y - g.yOffset) - b.yMax
        let y1 := (y - g.yOffset) - b.yMin
        match rect with
        | none => some { xMin := min x0 x1, yMin := min y0 y1,
                         xMax := max x0 x1, yMax := max y0 y1 }
        | some r => some { xMin := min r.xMin (min x0 x1),
                           yMin := min r.yMin (min y0 y1),
                           xMax := max r.xMax (max x0 x1),
                           yMax := max r.yMax (max y0 y1) }
    else rect
  (rect2, x + g.xAdvance, y - g.yAdvance)

/-- Embeds `TextLayout::ink_bounds` (layout.rs:404-456): walk every line from
its baseline, accumulating the tight ink rectangle; `none` models the
`min_x.is_finite()` failure case. -/
def inkBounds (fontOk : Nat → Bool) (boundsAt : ℚ → Nat → Nat → Option GlyphRect)
    (fontSize : ℚ) (lines : List LayoutLine) : Option GlyphRect :=
  lines.foldl
    (fun rect line =>
      (line.glyphs.foldl (inkStep fontOk boundsAt fontSize)
        (rect, line.baselineX, line.baselineY)).1)
    none

/-- `line_height = (ascent + descent + leading).max(font_size)`
(layout.rs:248-250), with `descent = -metrics.descent`. -/
def lineHeightOf (env : LayoutEnv) (fontSize : ℚ) : ℚ :=
  let m := env.metricsAt fontSize
  max (m.ascent + -m.descent + m.leading) fontSize

/-- The composed and baseline-placed lines of `run_with_size`, before the
ink-bounds translation (layout.rs:272-343). -/
def layoutPlacedLines (env : LayoutEnv) (text : Str) (fontSize : ℚ) :
    List LayoutLine :=
  let m := env.metricsAt fontSize
  let ascent := m.ascent
  let lineHeight := lineHeightOf env fontSize
  let maxExtent := if env.mode.isVertical then env.maxHeight else env.maxWidth
  composeLines env.mode.isVertical maxExtent text
    (fun seg => env.shape seg fontSize) (env.lineBreaks text)
  |> placeBaselines env.mode.isVertical ascent lineHeight

/-- Embeds `TextLayout::run_with_size` (layout.rs:241-373): compose lines,
place baselines, then either translate everything by the padded ink bounds or
fall back to the coarse `compute_bounds` extents. -/
def runWithSize (env : LayoutEnv) (text : Str) (fontSize : ℚ) : LayoutRun :=
  let m := env.metricsAt fontSize
  let descent := -m.descent
  let lineHeight := lineHeightOf env fontSize
  let placed := layoutPlacedLines env text fontSize
  let coarse := computeBounds env.mode.isVertical placed lineHeight descent
  match inkBounds env.fontOk env.glyphBoundsAt fontSize placed with
  | none => { lines := placed, width := coarse.1, height := coarse.2, fontSize }
  | some r =>
    let minX := r.xMin - 1
    let minY := r.yMin - 1
    let maxX := r.xMax + 1
    let maxY := r.yMax + 1
    { lines := placed.map (fun l =>
        { l with baselineX := l.baselineX - minX, baselineY := l.baselineY - minY }),
      width := max (maxX - minX) 0,
      height := max (maxY - minY) 0,
      fontSize }

/-- The error type of the fallible layout entry points: the single fit-failure
kind produced by `binary_search_font_size` (layout.rs:238), or an error
propagated from a collaborator. -/
inductive LayoutError where
  | fitFailure
  | external (tag : Nat)
deriving DecidableEq

/-- `layout.width <= max_width && layout.height <= max_height`
(layout.rs:230). -/
def fitsExtents (l : LayoutRun) (maxW maxH : Option ℚ) : Bool :=
  leOpt l.width maxW && leOpt l.height maxH

/-- The `while low <= high` loop of `binary_search_font_size`
(layout.rs:222-236), generic in the per-size layout call so that propagated
errors are represented. -/
def bsearchGo (layoutAt : Int → Except LayoutError LayoutRun)
    (maxW maxH : Option ℚ) : Int → Int → Option LayoutRun →
    Except LayoutError LayoutRun
  | low, high, best =>
    if _h : low ≤ high then
      let mid := (low + high) / 2
      match layoutAt mid with
      | .error e => .error e
      | .ok layout =>
        if fitsExtents layout maxW maxH then
          bsearchGo layoutAt maxW maxH (mid + 1) high (some layout)
        else
          bsearchGo layoutAt maxW maxH low (mid - 1) best
    else
      match best with
      | some b => .ok b
      | none => .error .fitFailure
termination_by low high _ => (high + 1 - low).toNat
decreasing_by all_goals omega

/-- Embeds `TextLayout::binary_search_font_size` (layout.rs:216-239). -/
def binarySearchFontSize (layoutAt : Int → Except LayoutError LayoutRun)
    (maxW maxH : Option ℚ) : Except LayoutError LayoutRun :=
  bsearchGo layoutAt maxW maxH 6 300 none

/-- The sizes at which the binary search invokes the layout, in the order it
tests them, as a function of the fit outcome at each size. -/
def bsearchTested (fits : Int → Bool) : Int → Int → List Int
  | low, high =>
    if _h : low ≤ high then
      let mid := (low + high) / 2
      mid :: (if fits mid then bsearchTested fits (mid + 1) high
              else bsearchTested fits low (mid - 1))
    else []
termination_by low high => (high + 1 - low).toNat
decreasing_by all_goals omega

/-- The pure skeleton of the binary search: the size whose layout the search
finally returns, tracking only the best size recorded so far. -/
def bsearchBest (fits : Int → Bool) : Int → Int → Option Int → Option Int
  | low, high, best =>
    if _h : low ≤ high then
      let mid := (low + high) / 2
      if fits mid then bsearchBest fits (mid + 1) high (some mid)
      else bsearchBest fits low (mid - 1) best
    else best
termination_by low high _ => (high + 1 - low).toNat
decreasing_by all_goals omega

/-- `fill_ratio` of the auto-fit loop (layout.rs:186-190): the box area is
finite and positive only when both extents are given and their product is
positive; otherwise the ratio is taken to be `1`. -/
def fillRatio (maxW maxH : Option ℚ) (l : LayoutRun) : ℚ :=
  match maxW, maxH with
  | some w, some h => if 0 < w * h then (l.width * l.height) / (w * h) else 1
  | _, _ => 1

/-- One word-splitting step of the auto-fit loop (layout.rs:198-209): split
the longest word of the text at its best hyphenation point. -/
def autoSplitStep (h : WordHyphenator) (text : Str) : Str :=
  splitLongestWord text (findLongestWord text) h

/-- The `for iteration in 0..=MAX_ITERATIONS` loop of `run_auto`
(layout.rs:181-210), generic in the binary-search call `bs`.  `fuel` counts
the iterations still allowed, so `fuel = 0` is `iteration == MAX_ITERATIONS`. -/
def runAutoGo (bs : Str → Except LayoutError LayoutRun) (maxW maxH : Option ℚ)
    (h : WordHyphenator) : Nat → Str → Except LayoutError LayoutRun
  | fuel, text =>
    match bs text with
    | .error e => .error e
    | .ok layout =>
      if (1 / 2 : ℚ) ≤ fillRatio maxW maxH layout ∨ fuel = 0 then .ok layout
      else if (findLongestWord text).length ≤ 6 then .ok layout
      else
        let newText := autoSplitStep h text
        if newText = text then .ok layout
        else
          match fuel with
          | 0 => .ok layout
          | fuel2 + 1 => runAutoGo bs maxW maxH h fuel2 newText

/-- The binary search over `run_with_size` exactly as `run_auto` invokes it
(layout.rs:183, 216-239); in this embedding `run_with_size` is total, so the
only possible error is the fit failure. -/
def autoBS (env : LayoutEnv) (text : Str) : Except LayoutError LayoutRun :=
  binarySearchFontSize (fun s => .ok (runWithSize env text (s : ℚ)))
    env.maxWidth env.maxHeight

/-- Embeds `TextLayout::run_auto` (layout.rs:163-214): plain binary search
when auto word break is off or no hyphenator is configured, otherwise the
bounded hyphenation loop with `MAX_ITERATIONS = 5`. -/
def runAuto (env : LayoutEnv) (autoWordBreak : Bool)
    (hyph : Option WordHyphenator) (text : Str) :
    Except LayoutError LayoutRun :=
  match hyph, autoWordBreak with
  | some h, true => runAutoGo (autoBS env) env.maxWidth env.maxHeight h 5 text
  | _, _ => autoBS env text

/-! ## Properties of `strip_punctuation` -/

theorem positionNonPunct_none {w : Str} (h : positionNonPunct w = none) :
    ∀ c ∈ w, isWordPunctuation c = true := by
  induction w with
  | nil => intro c hc; cases hc
  | cons a rest ih =>
    intro c hc
    by_cases hp : isWordPunctuation a
    · simp only [positionNonPunct, hp, if_pos] at h
      rcases List.mem_cons.mp hc with rfl | hc2
      · exact hp
      · exact ih (by cases hrest : positionNonPunct rest <;> simp [hrest] at h ⊢) c hc2
    · simp [positionNonPunct, hp] at h

theorem positionNonPunct_some {w : Str} {i : Nat} (h : positionNonPunct w = some i) :
    ∃ hi : i < w.length,
      (∀ c ∈ w.take i, isWordPunctuation c = true) ∧
        isWordPunctuation w[i] = false := by
  induction w generalizing i with
  | nil => cases h
  | cons a rest ih =>
    by_cases hp : isWordPunctuation a
    · simp only [positionNonPunct, hp, if_pos] at h
      cases hrest : positionNonPunct rest with
      | none => simp [hrest] at h
      | some j =>
        simp only [hrest, Option.map_some] at h
        obtain rfl : j + 1 = i := by injection h
        obtain ⟨hj, htake, hget⟩ := ih hrest
        exact ⟨by simpa using Nat.succ_lt_succ hj,
          by
            intro c hc
            rcases (by simpa using hc : c = a ∨ c ∈ rest.take j) with rfl | hc2
            · exact hp
            · exact htake c hc2,
          hget⟩
    · simp only [positionNonPunct, hp, if_neg, Bool.false_eq_true, not_false_iff] at h
      obtain rfl : 0 = i := by injection h
      exact ⟨by simp, by intro c hc; simp at hc, by simpa using hp⟩

theorem rpositionNonPunct_none {w : Str} (h : rpositionNonPunct w = none) :
    ∀ c ∈ w, isWordPunctuation c = true := by
  induction w with
  | nil => intro c hc; cases hc
  | cons a rest ih =>
    intro c hc
    cases hrest : rpositionNonPunct rest with
    | some j => simp [rpositionNonPunct, hrest] at h
    | none =>
      simp only [rpositionNonPunct, hrest] at h
      by_cases hp : isWordPunctuation a
      · rcases List.mem_cons.mp hc with rfl | hc2
        · exact hp
        · exact ih hrest c hc2
      · simp [hp] at h

theorem rpositionNonPunct_some {w : Str} {j : Nat} (h : rpositionNonPunct w = some j) :
    ∃ hj : j < w.length,
      isWordPunctuation w[j] = false ∧
        ∀ c ∈ w.drop (j + 1), isWordPunctuation c = true := by
  induction w generalizing j with
  | nil => cases h
  | cons a rest ih =>
    cases hrest : rpositionNonPunct rest with
    | some i =>
      simp only [rpositionNonPunct, hrest] at h
      obtain rfl : i + 1 = j := by injection h
      obtain ⟨hi, hget, hdrop⟩ := ih hrest
      exact ⟨by simpa using Nat.succ_lt_succ hi, hget, by simpa using hdrop⟩
    | none =>
      simp only [rpositionNonPunct, hrest] at h
      by_cases hp : isWordPunctuation a
      · simp [hp] at h
      · simp only [hp, Bool.false_eq_true, if_neg, not_false_iff] at h
        obtain rfl : 0 = j := by injection h
        exact ⟨by simp, by simpa using hp, by simpa using rpositionNonPunct_none hrest⟩

/-- C7: `strip_punctuation(w)` splits `w` into `(prefix, clean, suffix)` with
`prefix ++ clean ++ suffix == w`; the prefix and the suffix are runs of
word-boundary punctuation, maximal because `clean` neither starts nor ends
with such punctuation; and an all-punctuation word comes back entirely in the
prefix with `clean = suffix = ""`. -/
theorem strip_punctuation_spec (w : Str) :
    (stripPunctuation w).1 ++ (stripPunctuation w).2.1 ++ (stripPunctuation w).2.2 = w ∧
    (∀ c ∈ (stripPunctuation w).1, isWordPunctuation c = true) ∧
    (∀ c ∈ (stripPunctuation w).2.2, isWordPunctuation c = true) ∧
    (∀ c, (stripPunctuation w).2.1.head? = some c → isWordPunctuation c = false) ∧
    (∀ c, (stripPunctuation w).2.1.getLast? = some c → isWordPunctuation c = false) ∧
    ((∀ c ∈ w, isWordPunctuation c = true) → stripPunctuation w = (w, [], [])) ∧
    ((stripPunctuation w).2.1 = [] →
      (stripPunctuation w).1 = w ∧ (stripPunctuation w).2.2 = []) := by
  by_cases hw : w.length = 0
  · obtain rfl : w = [] := List.length_eq_zero.mp hw
    simp [stripPunctuation]
  · cases hp : positionNonPunct w with
    | none =>
      have hall := positionNonPunct_none hp
      have hr : rpositionNonPunct w = none := by
        cases hr2 : rpositionNonPunct w with
        | none => rfl
        | some j =>
          obtain ⟨hj, hget, _⟩ := rpositionNonPunct_some hr2
          exact absurd (hall _ (List.get_mem w j hj)) (by simp [hget])
      have heq : stripPunctuation w = (w, [], []) := by
        simp [stripPunctuation, hw, hp, hr]
      refine ⟨?_, ?_, ?_, ?_, ?_, ?_, ?_⟩ <;> simp [heq]
      exact hall
    | some i =>
      obtain ⟨hi, htake, hgeti⟩ := positionNonPunct_some hp
      cases hr : rpositionNonPunct w with
      | none =>
        exact absurd (rpositionNonPunct_none hr _ (List.get_mem w i hi)) (by simp [hgeti])
      | some j =>
        obtain ⟨hj, hgetj, hdrop⟩ := rpositionNonPunct_some hr
        have hij : i ≤ j := by
          by_contra hlt
          push_neg at hlt
          have hmem : w[i] ∈ w.drop (j + 1) := by
            have h4 : (w.drop (j + 1))[i - (j + 1)]? = w[(j + 1) + (i - (j + 1))]? :=
              List.getElem?_drop w (j + 1) (i - (j + 1))
            have harith : (j + 1) + (i - (j + 1)) = i := by omega
            rw [harith] at h4
            have h5 : (w.drop (j + 1))[i - (j + 1)]? = some w[i] := by
              rw [h4]; simp [List.getElem?_eq_getElem hi]
            obtain ⟨hb, heq2⟩ := List.getElem?_eq_some.mp h5
            exact heq2 ▸ List.getElem_mem hb
          exact absurd (hdrop _ hmem) (by simp [hgeti])
        have heq : stripPunctuation w =
            (w.take i, (w.drop i).take (j + 1 - i), w.drop (j + 1)) := by
          have hmap : (Option.map (fun x => x + 1) (some j)).getD 0 = j + 1 := rfl
          simp only [stripPunctuation, hp, hr, hmap, Option.getD_some]
          rw [if_neg hw, if_neg (by omega : ¬ j + 1 ≤ i)]
        have hdropcons : w.drop i = w[i] :: w.drop (i + 1) :=
          List.drop_eq_getElem_cons hi
        have hlenclean : ((w.drop i).take (j + 1 - i)).length = j + 1 - i := by
          simp only [List.length_take, List.length_drop]
          omega
        refine ⟨?_, ?_, ?_, ?_, ?_, ?_, ?_⟩
        · simp only [heq]
          have h1 : w.drop (j + 1) = (w.drop i).drop (j + 1 - i) := by
            rw [List.drop_drop]
            congr 1
            omega
          rw [List.append_assoc, h1, List.take_append_drop, List.take_append_drop]
        · simp only [heq]; exact htake
        · simp only [heq]; exact hdrop
        · simp only [heq]
          intro c hc
          have : ((w.drop i).take (j + 1 - i)).head? = some w[i] := by
            rw [hdropcons]
            have : j + 1 - i = (j - i) + 1 := by omega
            rw [this, List.take_succ_cons]
            rfl
          rw [this] at hc
          injection hc with hc
          rw [← hc]
          exact hgeti
        · simp only [heq]
          intro c hc
          rw [List.getLast?_eq_getElem?, hlenclean] at hc
          have h2 : j + 1 - i - 1 < j + 1 - i := by omega
          rw [List.getElem?_take_of_lt h2, List.getElem?_drop] at hc
          have h3 : i + (j + 1 - i - 1) = j := by omega
          rw [h3, List.getElem?_eq_getElem hj] at hc
          injection hc with hc
          rw [← hc]
          exact hgetj
        · intro hall
          exact absurd (hall _ (List.get_mem w i hi)) (by simp [hgeti])
        · simp only [heq]
          intro hnil
          rw [hnil] at hlenclean
          simp at hlenclean
          omega

/-- Witness for C7 at a concrete word with punctuation on both sides. -/
theorem strip_punctuation_spec_witness :
    (stripPunctuation ['(', 'a', 'b', '.']).1 ++
        (stripPunctuation ['(', 'a', 'b', '.']).2.1 ++
        (stripPunctuation ['(', 'a', 'b', '.']).2.2 = ['(', 'a', 'b', '.'] ∧
      (∀ c ∈ (stripPunctuation ['(', 'a', 'b', '.']).1, isWordPunctuation c = true) ∧
      (∀ c ∈ (stripPunctuation ['(', 'a', 'b', '.']).2.2, isWordPunctuation c = true) ∧
      (∀ c, (stripPunctuation ['(', 'a', 'b', '.']).2.1.head? = some c →
        isWordPunctuation c = false) ∧
      (∀ c, (stripPunctuation ['(', 'a', 'b', '.']).2.1.getLast? = some c →
        isWordPunctuation c = false) ∧
      ((∀ c ∈ ['(', 'a', 'b', '.'], isWordPunctuation c = true) →
        stripPunctuation ['(', 'a', 'b', '.'] = (['(', 'a', 'b', '.'], [], [])) ∧
      ((stripPunctuation ['(', 'a', 'b', '.']).2.1 = [] →
        (stripPunctuation ['(', 'a', 'b', '.']).1 = ['(', 'a', 'b', '.'] ∧
          (stripPunctuation ['(', 'a', 'b', '.']).2.2 = []) :=
  strip_punctuation_spec ['(', 'a', 'b', '.']

/-! ## Guards of `split_longest_word` (C9, C10) -/

/-- C9: `split_longest_word` is total in this embedding, and the explicit
guard `split_pos == 0 || split_pos >= chars.len()` (hyphenation.rs:115-117)
returns the text unchanged whenever the hyphenator's chosen index would make
either slice `chars[..split_pos]` or `chars[split_pos..]` degenerate, so the
slices are taken only with `0 < split_pos < chars.len()`. -/
theorem split_longest_word_guard (text word : Str) (h : WordHyphenator) (k : Nat)
    (hk : findSplitPoint h (stripPunctuation word).2.1 = some k)
    (hbad : k = 0 ∨ (stripPunctuation word).2.1.length ≤ k) :
    splitLongestWord text word h = text := by
  by_cases h1 : word.isEmpty
  · simp [splitLongestWord, h1]
  · by_cases h2 : ((stripPunctuation word).2.1.isEmpty ||
        decide ((stripPunctuation word).2.1.length < 2)) = true
    · simp only [splitLongestWord, h1, Bool.false_eq_true, if_false, h2, if_true]
    · rcases hbad with rfl | hb
      · simp [splitLongestWord, h1, h2, hk]
      · simp [splitLongestWord, h1, h2, hk, hb]

/-- Witness for C9: a degenerate hyphenator that reports a split at index 0
(its only segment cleans to the empty string) leaves the text unchanged. -/
theorem split_longest_word_guard_witness :
    findSplitPoint ⟨fun _ => [['-'], ['a', 'b', 'c']]⟩
        (stripPunctuation ['a', 'b', 'c']).2.1 = some 0 ∧
      splitLongestWord ['x', 'a', 'b', 'c'] ['a', 'b', 'c']
        ⟨fun _ => [['-'], ['a', 'b', 'c']]⟩ = ['x', 'a', 'b', 'c'] :=
  ⟨by decide,
   split_longest_word_guard ['x', 'a', 'b', 'c'] ['a', 'b', 'c']
     ⟨fun _ => [['-'], ['a', 'b', 'c']]⟩ 0 (by decide) (Or.inl rfl)⟩

theorem splitWhitespaceGo_nil_of_all_ws {t : Str}
    (hw : ∀ c ∈ t, rustIsWhitespace c = true) : splitWhitespaceGo [] t = [] := by
  induction t with
  | nil => rfl
  | cons c rest ih =>
    have hc : rustIsWhitespace c = true := hw c (List.mem_cons_self c rest)
    simp only [splitWhitespaceGo, hc, if_true, List.isEmpty_nil]
    exact ih (fun d hd => hw d (List.mem_cons_of_mem c hd))

/-- C10: on an empty or all-whitespace text `find_longest_word` returns the
empty string, and `split_longest_word` with the empty word is the identity,
so the auto-fit word-splitting step is a no-op on texts with no words. -/
theorem no_words_noop (t text : Str) (h : WordHyphenator)
    (hw : ∀ c ∈ t, rustIsWhitespace c = true) :
    findLongestWord t = [] ∧ splitLongestWord text [] h = text := by
  constructor
  · unfold findLongestWord splitWhitespace
    rw [splitWhitespaceGo_nil_of_all_ws hw]
    rfl
  · simp [splitLongestWord]

/-- Witness for C10 on a two-space text. -/
theorem no_words_noop_witness :
    findLongestWord [' ', ' '] = [] ∧
      splitLongestWord ['h', 'i'] [] ⟨fun _ => []⟩ = ['h', 'i'] :=
  no_words_noop [' ', ' '] ['h', 'i'] ⟨fun _ => []⟩ (by decide)

/-! ## `find_split_point` (C5) -/

/-- Sum of the cleaned character counts of a list of segments. -/
def cleanLenSum (segs : List Str) : Nat :=
  (segs.map (fun s => (cleanSegment s).length)).sum

theorem hyphenationPointsGo_bounds {segs : List Str} {pos p : Nat}
    (hne : ∀ s ∈ segs, cleanSegment s ≠ [])
    (hp : p ∈ hyphenationPointsGo pos segs) :
    pos < p ∧ p ≤ pos + cleanLenSum segs := by
  induction segs generalizing pos with
  | nil => cases hp
  | cons s rest ih =>
    have hs : 0 < (cleanSegment s).length :=
      List.length_pos.mpr (hne s (List.mem_cons_self s rest))
    rcases List.mem_cons.mp hp with rfl | hp2
    · refine ⟨by omega, ?_⟩
      simp only [cleanLenSum, List.map_cons, List.sum_cons]
      omega
    · obtain ⟨h1, h2⟩ := ih (fun d hd => hne d (List.mem_cons_of_mem s hd)) hp2
      refine ⟨by omega, ?_⟩
      simp only [cleanLenSum, List.map_cons, List.sum_cons] at h2 ⊢
      omega

theorem hyphenationPointsGo_sorted {segs : List Str} {pos : Nat}
    (hne : ∀ s ∈ segs, cleanSegment s ≠ []) :
    List.Pairwise (· < ·) (hyphenationPointsGo pos segs) := by
  induction segs generalizing pos with
  | nil => exact List.Pairwise.nil
  | cons s rest ih =>
    refine List.pairwise_cons.mpr ⟨?_, ih (fun d hd => hne d (List.mem_cons_of_mem s hd))⟩
    intro p hp
    exact (hyphenationPointsGo_bounds (fun d hd => hne d (List.mem_cons_of_mem s hd)) hp).1

theorem minByKeyFirst_spec (key : Nat → Nat) (x : Nat) (xs : List Nat) :
    minByKeyFirst key x xs ∈ x :: xs ∧
      (∀ y ∈ x :: xs, key (minByKeyFirst key x xs) ≤ key y) ∧
      ∃ pre post, x :: xs = pre ++ minByKeyFirst key x xs :: post ∧
        ∀ y ∈ pre, key (minByKeyFirst key x xs) < key y := by
  induction xs generalizing x with
  | nil =>
    refine ⟨List.mem_cons_self x [], ?_, [], [], rfl, by intro y hy; cases hy⟩
    intro y hy
    rcases List.mem_cons.mp hy with rfl | hy2
    · simp [minByKeyFirst]
    · cases hy2
  | cons y ys ih =>
    have hstep : minByKeyFirst key x (y :: ys) =
        minByKeyFirst key (if key y < key x then y else x) ys := rfl
    by_cases hlt : key y < key x
    · rw [hstep, if_pos hlt]
      obtain ⟨hmem, hmin, pre, post, hsplit, hpre⟩ := ih y
      refine ⟨?_, ?_, x :: pre, post, by rw [List.cons_append, ← hsplit], ?_⟩
      · exact List.mem_cons_of_mem x hmem
      · intro z hz
        rcases List.mem_cons.mp hz with rfl | hz2
        · have := hmin y (List.mem_cons_self y ys)
          omega
        · exact hmin z hz2
      · intro z hz
        rcases List.mem_cons.mp hz with rfl | hz2
        · have := hmin y (List.mem_cons_self y ys)
          omega
        · exact hpre z hz2
    · rw [hstep, if_neg hlt]
      obtain ⟨hmem, hmin, pre, post, hsplit, hpre⟩ := ih x
      have hminy : key (minByKeyFirst key x ys) ≤ key y := by
        have := hmin x (List.mem_cons_self x ys)
        omega
      refine ⟨?_, ?_, ?_⟩
      · rcases List.mem_cons.mp hmem with he | hm2
        · rw [he]; exact List.mem_cons_self _ _
        · exact List.mem_cons_of_mem x (List.mem_cons_of_mem y hm2)
      · intro z hz
        rcases List.mem_cons.mp hz with rfl | hz2
        · exact hmin z (List.mem_cons_self z ys)
        · rcases List.mem_cons.mp hz2 with rfl | hz3
          · exact hminy
          · exact hmin z (List.mem_cons_of_mem x hz3)
      · cases pre with
        | nil =>
          simp only [List.nil_append] at hsplit
          have hx : x = minByKeyFirst key x ys := (List.cons_eq_cons.mp hsplit).1
          refine ⟨[], y :: ys, ?_, by intro z hz; cases hz⟩
          rw [List.nil_append, ← hx]
        | cons a pre2 =>
          have hax : x = a := (List.cons_eq_cons.mp hsplit).1
          have htail : ys = pre2 ++ minByKeyFirst key x ys :: post :=
            (List.cons_eq_cons.mp hsplit).2
          refine ⟨x :: y :: pre2, post, by rw [List.cons_append, List.cons_append, ← htail], ?_⟩
          intro z hz
          have hka : key (minByKeyFirst key x ys) < key a :=
            hpre a (List.mem_cons_self a pre2)
          have hkx : key (minByKeyFirst key x ys) < key x := by
            have hxa : key x = key a := by rw [hax]
            rw [hxa]
            exact hka
          rcases List.mem_cons.mp hz with he | hz2
          · rw [he]; exact hkx
          · rcases List.mem_cons.mp hz2 with he2 | hz3
            · rw [he2]; omega
            · exact hpre z (List.mem_cons_of_mem a hz3)

/-- C5: under the hyphenation library's contract (its segments, hyphen marks
stripped, concatenate back to the word and are nonempty), `find_split_point`
returns `None` exactly when there are no hyphenation points; otherwise it
returns a point `k` with `0 < k < chars(word)` minimizing
`|k - chars(word)/2|`, and the earliest such point on ties. -/
theorem find_split_point_spec (h : WordHyphenator) (word : Str)
    (hjoin : ((h.hyphenate word).map cleanSegment).join = word)
    (hne : ∀ s ∈ h.hyphenate word, cleanSegment s ≠ []) :
    (findSplitPoint h word = none ↔ hyphenationPoints h word = []) ∧
    ∀ k, findSplitPoint h word = some k →
      k ∈ hyphenationPoints h word ∧ 0 < k ∧ k < word.length ∧
      (∀ q ∈ hyphenationPoints h word,
        ((k : ℤ) - ((word.length / 2 : ℕ) : ℤ)).natAbs ≤
          ((q : ℤ) - ((word.length / 2 : ℕ) : ℤ)).natAbs) ∧
      (∀ q ∈ hyphenationPoints h word,
        ((q : ℤ) - ((word.length / 2 : ℕ) : ℤ)).natAbs =
          ((k : ℤ) - ((word.length / 2 : ℕ) : ℤ)).natAbs → k ≤ q) := by
  cases hpts : hyphenationPoints h word with
  | nil =>
    refine ⟨⟨fun _ => rfl, fun _ => ?_⟩, fun k hkk => ?_⟩
    · simp [findSplitPoint, hpts]
    · simp [findSplitPoint, hpts] at hkk
  | cons p ps =>
    have hlen : ¬ (h.hyphenate word).length ≤ 1 := by
      intro hle
      simp [hyphenationPoints, hle] at hpts
    have hgo : hyphenationPoints h word =
        hyphenationPointsGo 0
          ((h.hyphenate word).take ((h.hyphenate word).length - 1)) := by
      simp [hyphenationPoints, hlen]
    have hnetake : ∀ s ∈ (h.hyphenate word).take ((h.hyphenate word).length - 1),
        cleanSegment s ≠ [] :=
      fun s hs => hne s (List.take_subset _ _ hs)
    have hsorted : List.Pairwise (· < ·) (p :: ps) := by
      rw [← hpts, hgo]
      exact hyphenationPointsGo_sorted hnetake
    have hwordlen : word.length =
        cleanLenSum ((h.hyphenate word).take ((h.hyphenate word).length - 1)) +
          cleanLenSum ((h.hyphenate word).drop ((h.hyphenate word).length - 1)) := by
      conv_lhs => rw [← hjoin]
      rw [List.length_join]
      have hmapmap : ∀ l : List Str,
          (l.map cleanSegment).map List.length =
            l.map (fun s => (cleanSegment s).length) := by
        intro l
        rw [List.map_map]
        rfl
      rw [hmapmap]
      conv_lhs =>
        rw [← List.take_append_drop ((h.hyphenate word).length - 1) (h.hyphenate word)]
      rw [List.map_append, List.sum_append]
      rfl
    have hdroppos : 0 <
        cleanLenSum ((h.hyphenate word).drop ((h.hyphenate word).length - 1)) := by
      have hd : ((h.hyphenate word).drop ((h.hyphenate word).length - 1)).length = 1 := by
        rw [List.length_drop]
        omega
      obtain ⟨s, hs⟩ := List.length_eq_one.mp hd
      have hsmem : s ∈ h.hyphenate word :=
        List.drop_subset _ _ (hs ▸ List.mem_cons_self s [])
      have : 0 < (cleanSegment s).length := List.length_pos.mpr (hne s hsmem)
      simp [cleanLenSum, hs]
      omega
    have hbound : ∀ q ∈ p :: ps,
        0 < q ∧ q ≤ cleanLenSum
          ((h.hyphenate word).take ((h.hyphenate word).length - 1)) := by
      intro q hq
      rw [← hpts, hgo] at hq
      have := hyphenationPointsGo_bounds hnetake hq
      omega
    have hfsp : findSplitPoint h word =
        some (minByKeyFirst
          (fun pos => ((pos : ℤ) - ((word.length / 2 : ℕ) : ℤ)).natAbs) p ps) := by
      simp [findSplitPoint, hpts]
    refine ⟨⟨fun hcon => ?_, fun hcon => ?_⟩, fun k hkk => ?_⟩
    · rw [hfsp] at hcon
      cases hcon
    · simp at hcon
    · rw [hfsp] at hkk
      have hkeq : minByKeyFirst
          (fun pos => ((pos : ℤ) - ((word.length / 2 : ℕ) : ℤ)).natAbs) p ps = k := by
        injection hkk
      obtain ⟨hmem, hmin, pre, post, hsplit, hpre⟩ :=
        minByKeyFirst_spec
          (fun pos => ((pos : ℤ) - ((word.length / 2 : ℕ) : ℤ)).natAbs) p ps
      rw [hkeq] at hmem hmin hsplit hpre
      obtain ⟨hk0, hkle⟩ := hbound k hmem
      refine ⟨hmem, hk0, by omega, fun q hq => hmin q hq, ?_⟩
      intro q hq hqdist
      rw [hsplit] at hq
      rcases List.mem_append.mp hq with hq2 | hq2
      · have := hpre q hq2
        omega
      · rcases List.mem_cons.mp hq2 with rfl | hq3
        · exact le_refl q
        · have hpw : List.Pairwise (· < ·) (pre ++ k :: post) := hsplit ▸ hsorted
          have hkpost : ∀ y ∈ post, k < y :=
            (List.pairwise_cons.mp (List.pairwise_append.mp hpw).2.1).1
          exact le_of_lt (hkpost q hq3)

/-- Witness for C5: a concrete two-segment hyphenation of a four-letter word. -/
theorem find_split_point_spec_witness :
    (findSplitPoint ⟨fun _ => [['a', 'b'], ['c', 'd']]⟩ ['a', 'b', 'c', 'd'] = none ↔
      hyphenationPoints ⟨fun _ => [['a', 'b'], ['c', 'd']]⟩ ['a', 'b', 'c', 'd'] = []) ∧
    ∀ k, findSplitPoint ⟨fun _ => [['a', 'b'], ['c', 'd']]⟩ ['a', 'b', 'c', 'd'] = some k →
      k ∈ hyphenationPoints ⟨fun _ => [['a', 'b'], ['c', 'd']]⟩ ['a', 'b', 'c', 'd'] ∧
      0 < k ∧ k < (['a', 'b', 'c', 'd'] : Str).length ∧
      (∀ q ∈ hyphenationPoints ⟨fun _ => [['a', 'b'], ['c', 'd']]⟩ ['a', 'b', 'c', 'd'],
        ((k : ℤ) - (((['a', 'b', 'c', 'd'] : Str).length / 2 : ℕ) : ℤ)).natAbs ≤
          ((q : ℤ) - (((['a', 'b', 'c', 'd'] : Str).length / 2 : ℕ) : ℤ)).natAbs) ∧
      (∀ q ∈ hyphenationPoints ⟨fun _ => [['a', 'b'], ['c', 'd']]⟩ ['a', 'b', 'c', 'd'],
        ((q : ℤ) - (((['a', 'b', 'c', 'd'] : Str).length / 2 : ℕ) : ℤ)).natAbs =
          ((k : ℤ) - (((['a', 'b', 'c', 'd'] : Str).length / 2 : ℕ) : ℤ)).natAbs → k ≤ q) :=
  find_split_point_spec ⟨fun _ => [['a', 'b'], ['c', 'd']]⟩ ['a', 'b', 'c', 'd']
    (by decide) (by decide)

/-! ## `split_longest_word` (C6) -/

theorem isLeading_iff (pat l : Str) : isLeading pat l = true ↔ ∃ t, l = pat ++ t := by
  induction pat generalizing l with
  | nil => simp [isLeading]
  | cons a as_ ih =>
    cases l with
    | nil =>
      simp [isLeading]
    | cons b bs =>
      simp only [isLeading, Bool.and_eq_true, decide_eq_true_eq, ih, List.cons_append,
        List.cons_eq_cons]
      constructor
      · rintro ⟨rfl, t, rfl⟩
        exact ⟨t, rfl, rfl⟩
      · rintro ⟨t, rfl, rfl⟩
        exact ⟨rfl, t, rfl⟩

theorem firstMatchIdx_none_iff (pat text : Str) :
    firstMatchIdx pat text = none ↔ ¬ ∃ pre post, text = pre ++ pat ++ post := by
  induction text with
  | nil =>
    by_cases hp : pat.isEmpty
    · obtain rfl : pat = [] := List.isEmpty_iff.mp hp
      simp only [firstMatchIdx, List.isEmpty_nil, if_true]
      constructor
      · intro hcon; cases hcon
      · intro hno; exact absurd ⟨[], [], rfl⟩ hno
    · simp only [firstMatchIdx, hp, Bool.false_eq_true, if_false, true_iff]
      rintro ⟨pre, post, habs⟩
      have hlen := congrArg List.length habs
      simp at hlen
      have hnil : pat = [] := List.length_eq_zero.mp (by omega)
      exact hp (by simp [hnil])
  | cons c rest ih =>
    by_cases hl : isLeading pat (c :: rest) = true
    · simp only [firstMatchIdx, hl, if_true]
      constructor
      · intro hcon; cases hcon
      · intro hno
        exfalso
        obtain ⟨t, ht⟩ := (isLeading_iff pat (c :: rest)).mp hl
        exact hno ⟨[], t, by simpa using ht⟩
    · have hlf : isLeading pat (c :: rest) = false := by
        cases hb : isLeading pat (c :: rest)
        · rfl
        · exact absurd hb hl
      simp only [firstMatchIdx, hlf, Bool.false_eq_true, if_false]
      have hstep : (Option.map (fun x => x + 1) (firstMatchIdx pat rest) = none) ↔
          firstMatchIdx pat rest = none := by
        cases firstMatchIdx pat rest <;> simp
      rw [hstep, ih]
      constructor
      · rintro hno ⟨pre, post, heq⟩
        cases pre with
        | nil =>
          exact hl ((isLeading_iff pat (c :: rest)).mpr ⟨post, by simpa using heq⟩)
        | cons d pre2 =>
          have htail : rest = pre2 ++ pat ++ post := by
            simpa using congrArg List.tail heq
          exact hno ⟨pre2, post, htail⟩
      · rintro hno ⟨pre, post, heq⟩
        exact hno ⟨c :: pre, post, by simp [heq]⟩

theorem replaceFirst_eq (pat repl text : Str) :
    replaceFirst pat repl text =
      match firstMatchIdx pat text with
      | none => text
      | some i => text.take i ++ repl ++ text.drop (i + pat.length) := by
  induction text with
  | nil =>
    by_cases hp : pat.isEmpty
    · obtain rfl : pat = [] := List.isEmpty_iff.mp hp
      simp [replaceFirst, firstMatchIdx]
    · simp [replaceFirst, firstMatchIdx, hp]
  | cons c rest ih =>
    by_cases hl : isLeading pat (c :: rest) = true
    · simp [replaceFirst, firstMatchIdx, hl]
    · have hlf : isLeading pat (c :: rest) = false := by
        cases hb : isLeading pat (c :: rest)
        · rfl
        · exact absurd hb hl
      simp only [replaceFirst, firstMatchIdx, hlf, Bool.false_eq_true, if_false]
      cases hfm : firstMatchIdx pat rest with
      | none =>
        rw [ih, hfm]
        rfl
      | some i =>
        rw [ih, hfm]
        show c :: (rest.take i ++ repl ++ rest.drop (i + pat.length)) =
          (c :: rest).take (i + 1) ++ repl ++ (c :: rest).drop (i + 1 + pat.length)
        have h2 : (c :: rest).drop (i + 1 + pat.length) = rest.drop (i + pat.length) := by
          have h3 : i + 1 + pat.length = (i + pat.length) + 1 := by omega
          rw [h3]
          rfl
        rw [List.take_succ_cons, h2]
        simp

theorem firstMatchIdx_some {pat text : Str} {i : Nat}
    (h : firstMatchIdx pat text = some i) :
    i + pat.length ≤ text.length ∧
      text = text.take i ++ pat ++ text.drop (i + pat.length) ∧
      ∀ j, j < i → isLeading pat (text.drop j) = false := by
  induction text generalizing i with
  | nil =>
    by_cases hp : pat.isEmpty
    · obtain rfl : pat = [] := List.isEmpty_iff.mp hp
      simp only [firstMatchIdx, List.isEmpty_nil, if_true, Option.some_inj] at h
      subst h
      exact ⟨by simp, by simp, by intro j hj; omega⟩
    · simp [firstMatchIdx, hp] at h
  | cons c rest ih =>
    by_cases hl : isLeading pat (c :: rest) = true
    · simp only [firstMatchIdx, hl, if_true, Option.some_inj] at h
      subst h
      obtain ⟨t, ht⟩ := (isLeading_iff pat (c :: rest)).mp hl
      have hlen : pat.length ≤ (c :: rest).length := by
        rw [ht]
        simp
      refine ⟨by simpa using hlen, ?_, by intro j hj; omega⟩
      rw [List.take_zero, List.nil_append, Nat.zero_add, ht]
      simp [List.drop_append_of_le_length]
    · simp only [firstMatchIdx, hl, Bool.false_eq_true, if_false] at h
      cases hfm : firstMatchIdx pat rest with
      | none => rw [hfm] at h; cases h
      | some i2 =>
        rw [hfm] at h
        have h6 : some (i2 + 1) = some i := h
        have h5 : i2 + 1 = i := by injection h6
        subst h5
        obtain ⟨hle, heq, hnolead⟩ := ih hfm
        refine ⟨by simp only [List.length_cons]; omega, ?_, ?_⟩
        · have h2 : (c :: rest).drop (i2 + 1 + pat.length) = rest.drop (i2 + pat.length) := by
            have : i2 + 1 + pat.length = (i2 + pat.length) + 1 := by omega
            rw [this]
            rfl
          rw [h2]
          calc c :: rest = c :: (rest.take i2 ++ pat ++ rest.drop (i2 + pat.length)) := by
                rw [← heq]
            _ = (c :: rest).take (i2 + 1) ++ pat ++ rest.drop (i2 + pat.length) := by
                simp
        · intro j hj
          cases j with
          | zero => simpa using hl
          | succ j2 => exact hnolead j2 (by omega)

/-- C6: `split_longest_word` replaces exactly the first occurrence of `word`
in `text` by `prefix ++ c1 ++ "- " ++ c2 ++ suffix`, where
`(prefix, clean, suffix) = strip_punctuation(word)` and `clean = c1 ++ c2` is
cut at the hyphenator's split index; the text comes back unchanged when the
cleaned word has fewer than two characters, when the hyphenator finds no
split point, or when `word` does not occur in `text`. -/
theorem split_longest_word_spec (text word : Str) (h : WordHyphenator)
    (hw : word ≠ []) :
    (firstMatchIdx word text = none → splitLongestWord text word h = text) ∧
    ((¬ ∃ pre post, text = pre ++ word ++ post) ↔ firstMatchIdx word text = none) ∧
    (∀ i, firstMatchIdx word text = some i →
      text = text.take i ++ word ++ text.drop (i + word.length) ∧
        ∀ j, j < i → isLeading word (text.drop j) = false) ∧
    ((stripPunctuation word).2.1.length < 2 → splitLongestWord text word h = text) ∧
    (findSplitPoint h (stripPunctuation word).2.1 = none →
      splitLongestWord text word h = text) ∧
    (∀ k i, findSplitPoint h (stripPunctuation word).2.1 = some k →
      0 < k → k < (stripPunctuation word).2.1.length →
      firstMatchIdx word text = some i →
      splitLongestWord text word h =
        text.take i ++
          ((stripPunctuation word).1 ++ (stripPunctuation word).2.1.take k ++
            ['-', ' '] ++ (stripPunctuation word).2.1.drop k ++
            (stripPunctuation word).2.2) ++
          text.drop (i + word.length)) := by
  have hwe : word.isEmpty = false := by
    cases word with
    | nil => exact absurd rfl hw
    | cons a l => rfl
  refine ⟨?_, ?_, ?_, ?_, ?_, ?_⟩
  · intro hnone
    simp only [splitLongestWord, hwe, Bool.false_eq_true, if_false]
    split
    · rfl
    · split
      · rfl
      · split
        · rfl
        · rw [replaceFirst_eq, hnone]
  · exact (firstMatchIdx_none_iff word text).symm
  · intro i hi
    exact (firstMatchIdx_some hi).2
  · intro hlen
    simp only [splitLongestWord, hwe, Bool.false_eq_true, if_false]
    rw [if_pos]
    simp [hlen]
  · intro hfn
    simp only [splitLongestWord, hwe, Bool.false_eq_true, if_false, hfn]
    split
    · rfl
    · rfl
  · intro k i hk h0 hlt hfm
    have hlen2 : 2 ≤ (stripPunctuation word).2.1.length := by omega
    have hne2 : (stripPunctuation word).2.1.isEmpty = false := by
      cases hcl : (stripPunctuation word).2.1 with
      | nil => rw [hcl] at hlen2; simp at hlen2
      | cons a l => rfl
    simp only [splitLongestWord, hwe, Bool.false_eq_true, if_false, hne2, hk]
    rw [if_neg, if_neg]
    · rw [replaceFirst_eq, hfm]
    · simp
      omega
    · simp
      omega

/-- Witness for C6 at concrete inputs: the word `abcd` occurs first at index 1
of `xabcd` and is split in the middle by a two-segment hyphenation. -/
theorem split_longest_word_spec_witness :
    (firstMatchIdx ['a', 'b', 'c', 'd'] ['x', 'a', 'b', 'c', 'd'] = none →
      splitLongestWord ['x', 'a', 'b', 'c', 'd'] ['a', 'b', 'c', 'd']
        ⟨fun _ => [['a', 'b'], ['c', 'd']]⟩ = ['x', 'a', 'b', 'c', 'd']) ∧
    ((¬ ∃ pre post, ['x', 'a', 'b', 'c', 'd'] = pre ++ ['a', 'b', 'c', 'd'] ++ post) ↔
      firstMatchIdx ['a', 'b', 'c', 'd'] ['x', 'a', 'b', 'c', 'd'] = none) ∧
    (∀ i, firstMatchIdx ['a', 'b', 'c', 'd'] ['x', 'a', 'b', 'c', 'd'] = some i →
      ['x', 'a', 'b', 'c', 'd'] =
          (['x', 'a', 'b', 'c', 'd'] : Str).take i ++ ['a', 'b', 'c', 'd'] ++
            (['x', 'a', 'b', 'c', 'd'] : Str).drop (i + (['a', 'b', 'c', 'd'] : Str).length) ∧
        ∀ j, j < i →
          isLeading ['a', 'b', 'c', 'd'] ((['x', 'a', 'b', 'c', 'd'] : Str).drop j) = false) ∧
    ((stripPunctuation ['a', 'b', 'c', 'd']).2.1.length < 2 →
      splitLongestWord ['x', 'a', 'b', 'c', 'd'] ['a', 'b', 'c', 'd']
        ⟨fun _ => [['a', 'b'], ['c', 'd']]⟩ = ['x', 'a', 'b', 'c', 'd']) ∧
    (findSplitPoint ⟨fun _ => [['a', 'b'], ['c', 'd']]⟩
        (stripPunctuation ['a', 'b', 'c', 'd']).2.1 = none →
      splitLongestWord ['x', 'a', 'b', 'c', 'd'] ['a', 'b', 'c', 'd']
        ⟨fun _ => [['a', 'b'], ['c', 'd']]⟩ = ['x', 'a', 'b', 'c', 'd']) ∧
    (∀ k i, findSplitPoint ⟨fun _ => [['a', 'b'], ['c', 'd']]⟩
        (stripPunctuation ['a', 'b', 'c', 'd']).2.1 = some k →
      0 < k → k < (stripPunctuation ['a', 'b', 'c', 'd']).2.1.length →
      firstMatchIdx ['a', 'b', 'c', 'd'] ['x', 'a', 'b', 'c', 'd'] = some i →
      splitLongestWord ['x', 'a', 'b', 'c', 'd'] ['a', 'b', 'c', 'd']
          ⟨fun _ => [['a', 'b'], ['c', 'd']]⟩ =
        (['x', 'a', 'b', 'c', 'd'] : Str).take i ++
          ((stripPunctuation ['a', 'b', 'c', 'd']).1 ++
            (stripPunctuation ['a', 'b', 'c', 'd']).2.1.take k ++
            ['-', ' '] ++ (stripPunctuation ['a', 'b', 'c', 'd']).2.1.drop k ++
            (stripPunctuation ['a', 'b', 'c', 'd']).2.2) ++
          (['x', 'a', 'b', 'c', 'd'] : Str).drop (i + (['a', 'b', 'c', 'd'] : Str).length)) :=
  split_longest_word_spec ['x', 'a', 'b', 'c', 'd'] ['a', 'b', 'c', 'd']
    ⟨fun _ => [['a', 'b'], ['c', 'd']]⟩ (by decide)

/-! ## The auto-fit loop (C3) -/

theorem runAutoGo_exists_iterate (bs : Str → Except LayoutError LayoutRun)
    (maxW maxH : Option ℚ) (hy : WordHyphenator) :
    ∀ fuel text, ∃ k, k ≤ fuel ∧
      runAutoGo bs maxW maxH hy fuel text = bs ((autoSplitStep hy)^[k] text) := by
  intro fuel
  induction fuel with
  | zero =>
    intro text
    refine ⟨0, le_refl 0, ?_⟩
    rw [Function.iterate_zero_apply, runAutoGo]
    cases hbs : bs text with
    | error e => rfl
    | ok layout => simp
  | succ f ih =>
    intro text
    cases hbs : bs text with
    | error e =>
      refine ⟨0, by omega, ?_⟩
      rw [Function.iterate_zero_apply, hbs]
      conv_lhs => rw [runAutoGo, hbs]
    | ok layout =>
      by_cases hfill : (1 / 2 : ℚ) ≤ fillRatio maxW maxH layout ∨ f + 1 = 0
      · refine ⟨0, by omega, ?_⟩
        rw [Function.iterate_zero_apply, hbs]
        conv_lhs => rw [runAutoGo, hbs]
        simp only [if_pos hfill]
      · by_cases hlong : (findLongestWord text).length ≤ 6
        · refine ⟨0, by omega, ?_⟩
          rw [Function.iterate_zero_apply, hbs]
          conv_lhs => rw [runAutoGo, hbs]
          simp only [if_neg hfill, if_pos hlong]
        · by_cases hsame : autoSplitStep hy text = text
          · refine ⟨0, by omega, ?_⟩
            rw [Function.iterate_zero_apply, hbs]
            conv_lhs => rw [runAutoGo, hbs]
            simp only [if_neg hfill, if_neg hlong, if_pos hsame]
          · obtain ⟨k, hk, hrec⟩ := ih (autoSplitStep hy text)
            refine ⟨k + 1, by omega, ?_⟩
            rw [Function.iterate_succ_apply]
            conv_lhs => rw [runAutoGo, hbs]
            simp only [if_neg hfill, if_neg hlong, if_neg hsame]
            exact hrec

/-- C3: with auto word break enabled and a hyphenator configured, one loop
pass returns the current layout as soon as the fill ratio reaches 1/2, the
iteration budget is exhausted, the longest word has at most 6 characters, or
splitting the longest word leaves the text unchanged — and otherwise recurses
on the split text with one unit of budget less; consequently the loop always
terminates, its result being the binary search's layout (or propagated error)
for the text after at most 5 word splits. -/
theorem run_auto_spec :
    (∀ (bs : Str → Except LayoutError LayoutRun) (maxW maxH : Option ℚ)
        (hy : WordHyphenator) (fuel : Nat) (text : Str),
      runAutoGo bs maxW maxH hy fuel text =
        match bs text with
        | .error e => .error e
        | .ok layout =>
          if (1 / 2 : ℚ) ≤ fillRatio maxW maxH layout ∨ fuel = 0 then .ok layout
          else if (findLongestWord text).length ≤ 6 then .ok layout
          else if autoSplitStep hy text = text then .ok layout
          else runAutoGo bs maxW maxH hy (fuel - 1) (autoSplitStep hy text)) ∧
    (∀ (env : LayoutEnv) (hy : WordHyphenator) (text : Str),
      runAuto env true (some hy) text =
        runAutoGo (autoBS env) env.maxWidth env.maxHeight hy 5 text) ∧
    (∀ (env : LayoutEnv) (hy : WordHyphenator) (text : Str), ∃ k, k ≤ 5 ∧
      runAuto env true (some hy) text = autoBS env ((autoSplitStep hy)^[k] text)) := by
  refine ⟨?_, fun env hy text => rfl, ?_⟩
  · intro bs maxW maxH hy fuel text
    conv_lhs => rw [runAutoGo]
    cases hbs : bs text with
    | error e => rfl
    | ok layout =>
      cases fuel with
      | zero => simp
      | succ f =>
        by_cases hfill : (1 / 2 : ℚ) ≤ fillRatio maxW maxH layout ∨ f + 1 = 0
        · simp only [if_pos hfill]
        · simp only [if_neg hfill]
          by_cases hlong : (findLongestWord text).length ≤ 6
          · simp only [if_pos hlong]
          · simp only [if_neg hlong]
            by_cases hsame : autoSplitStep hy text = text
            · simp only [if_pos hsame]
            · simp only [if_neg hsame]
              rfl
  · intro env hy text
    exact runAutoGo_exists_iterate (autoBS env) env.maxWidth env.maxHeight hy 5 text

/-! ## The binary search over font sizes (C1) -/

theorem bsearchTested_bounds (fits : Int → Bool) (low high : Int) :
    ∀ t ∈ bsearchTested fits low high, low ≤ t ∧ t ≤ high := by
  induction low, high using bsearchTested.induct fits with
  | case1 low high h mid ih1 ih2 =>
    intro t ht
    rw [bsearchTested, dif_pos h] at ht
    have hmid1 : low ≤ (low + high) / 2 := by omega
    have hmid2 : (low + high) / 2 ≤ high := by omega
    rcases List.mem_cons.mp ht with rfl | ht2
    · exact ⟨hmid1, hmid2⟩
    · by_cases hf : fits ((low + high) / 2)
      · rw [if_pos hf] at ht2
        have := ih1 t ht2
        omega
      · rw [if_neg hf] at ht2
        have := ih2 t ht2
        omega
  | case2 low high h =>
    intro t ht
    rw [bsearchTested, dif_neg h] at ht
    cases ht

theorem bsearchBest_inv (fits : Int → Bool) (low high : Int) (b : Option Int) :
    match bsearchBest fits low high b with
    | none => b = none ∧ ∀ t ∈ bsearchTested fits low high, fits t = false
    | some s =>
      (s ∈ bsearchTested fits low high ∧ fits s = true ∧
        ∀ t ∈ bsearchTested fits low high, fits t = true → t ≤ s) ∨
      (b = some s ∧ ∀ t ∈ bsearchTested fits low high, fits t = false) := by
  induction low, high, b using bsearchBest.induct fits with
  | case1 low high b h mid hf ih =>
    have hmid : mid = (low + high) / 2 := rfl
    rw [hmid] at hf ih
    rw [bsearchBest, dif_pos h]
    rw [bsearchTested, dif_pos h]
    simp only [if_pos hf]
    cases hres : bsearchBest fits ((low + high) / 2 + 1) high (some ((low + high) / 2)) with
    | none =>
      rw [hres] at ih
      exact absurd ih.1 (by simp)
    | some s =>
      rw [hres] at ih
      rcases ih with ⟨hmem, hfs, hmax⟩ | ⟨hbs, hunfit⟩
      · left
        refine ⟨List.mem_cons_of_mem _ hmem, hfs, ?_⟩
        intro t ht hft
        rcases List.mem_cons.mp ht with rfl | ht2
        · have := (bsearchTested_bounds fits _ _ s hmem).1
          omega
        · exact hmax t ht2 hft
      · obtain rfl : (low + high) / 2 = s := by injection hbs
        left
        refine ⟨List.mem_cons_self _ _, hf, ?_⟩
        intro t ht hft
        rcases List.mem_cons.mp ht with rfl | ht2
        · exact le_refl _
        · exact absurd hft (by simp [hunfit t ht2])
  | case2 low high b h mid hf ih =>
    have hmid : mid = (low + high) / 2 := rfl
    rw [hmid] at hf ih
    rw [bsearchBest, dif_pos h]
    rw [bsearchTested, dif_pos h]
    simp only [if_neg hf]
    cases hres : bsearchBest fits low ((low + high) / 2 - 1) b with
    | none =>
      rw [hres] at ih
      refine ⟨ih.1, ?_⟩
      intro t ht
      rcases List.mem_cons.mp ht with rfl | ht2
      · simpa using hf
      · exact ih.2 t ht2
    | some s =>
      rw [hres] at ih
      rcases ih with ⟨hmem, hfs, hmax⟩ | ⟨hbs, hunfit⟩
      · left
        refine ⟨List.mem_cons_of_mem _ hmem, hfs, ?_⟩
        intro t ht hft
        rcases List.mem_cons.mp ht with rfl | ht2
        · exact absurd hft (by simpa using hf)
        · exact hmax t ht2 hft
      · right
        refine ⟨hbs, ?_⟩
        intro t ht
        rcases List.mem_cons.mp ht with rfl | ht2
        · simpa using hf
        · exact hunfit t ht2
  | case3 low high b h =>
    rw [bsearchBest, dif_neg h]
    rw [bsearchTested, dif_neg h]
    cases b with
    | none => exact ⟨rfl, by intro t ht; cases ht⟩
    | some s => exact Or.inr ⟨rfl, by intro t ht; cases ht⟩

theorem bsearchGo_pure (L : Int → LayoutRun) (maxW maxH : Option ℚ)
    (low high : Int) (bi : Option Int) :
    bsearchGo (fun s => .ok (L s)) maxW maxH low high (bi.map L) =
      match bsearchBest (fun s => fitsExtents (L s) maxW maxH) low high bi with
      | none => .error .fitFailure
      | some s => .ok (L s) := by
  induction low, high, bi using
    bsearchBest.induct (fun s => fitsExtents (L s) maxW maxH) with
  | case1 low high bi h mid hf ih =>
    have hmid : mid = (low + high) / 2 := rfl
    rw [hmid] at hf ih
    rw [bsearchBest, dif_pos h]
    rw [bsearchGo.eq_def]
    simp only [dif_pos h, if_pos hf]
    exact ih
  | case2 low high bi h mid hf ih =>
    have hmid : mid = (low + high) / 2 := rfl
    rw [hmid] at hf ih
    rw [bsearchBest, dif_pos h]
    rw [bsearchGo.eq_def]
    simp only [dif_pos h, if_neg hf]
    exact ih
  | case3 low high bi h =>
    rw [bsearchBest, dif_neg h]
    rw [bsearchGo.eq_def]
    simp only [dif_neg h]
    cases bi with
    | none => rfl
    | some s => rfl

/-- C1: with no caller font size, the binary search tests only integer sizes
in `[6, 300]`; a size fits when its layout satisfies `width ≤ max_width` and
`height ≤ max_height`; the search returns the layout recorded for the largest
fitting tested size, and it returns the single fit-failure error if and only
if no tested size fits.  (`L` is the per-size layout produced by
`run_with_size`, which in this embedding always succeeds.) -/
theorem binary_search_font_size_spec (L : Int → LayoutRun) (maxW maxH : Option ℚ) :
    (∀ t ∈ bsearchTested (fun s => fitsExtents (L s) maxW maxH) 6 300,
      6 ≤ t ∧ t ≤ 300) ∧
    (binarySearchFontSize (fun s => .ok (L s)) maxW maxH =
        .error .fitFailure ↔
      ∀ t ∈ bsearchTested (fun s => fitsExtents (L s) maxW maxH) 6 300,
        fitsExtents (L t) maxW maxH = false) ∧
    (∀ s ∈ bsearchTested (fun s2 => fitsExtents (L s2) maxW maxH) 6 300,
      fitsExtents (L s) maxW maxH = true →
      ∃ sb ∈ bsearchTested (fun s2 => fitsExtents (L s2) maxW maxH) 6 300,
        fitsExtents (L sb) maxW maxH = true ∧
        binarySearchFontSize (fun s2 => .ok (L s2)) maxW maxH = .ok (L sb) ∧
        ∀ t ∈ bsearchTested (fun s2 => fitsExtents (L s2) maxW maxH) 6 300,
          fitsExtents (L t) maxW maxH = true → t ≤ sb) := by
  have hpure : bsearchGo (fun s => .ok (L s)) maxW maxH 6 300 none =
      match bsearchBest (fun s => fitsExtents (L s) maxW maxH) 6 300 none with
      | none => .error .fitFailure
      | some s => .ok (L s) := bsearchGo_pure L maxW maxH 6 300 none
  have hinv := bsearchBest_inv (fun s => fitsExtents (L s) maxW maxH) 6 300 none
  refine ⟨bsearchTested_bounds _ 6 300, ⟨?_, ?_⟩, ?_⟩
  · intro herr
    cases hres : bsearchBest (fun s => fitsExtents (L s) maxW maxH) 6 300 none with
    | none =>
      rw [hres] at hinv
      exact hinv.2
    | some s =>
      rw [hres] at hpure
      rw [binarySearchFontSize] at herr
      rw [hpure] at herr
      cases herr
  · intro hunfit
    cases hres : bsearchBest (fun s => fitsExtents (L s) maxW maxH) 6 300 none with
    | none =>
      rw [hres] at hpure
      rw [binarySearchFontSize, hpure]
    | some s =>
      rw [hres] at hinv
      rcases hinv with ⟨hmem, hfs, _⟩ | ⟨hbs, _⟩
      · exact absurd hfs (by simp [hunfit s hmem])
      · cases hbs
  · intro s hmem hfit
    cases hres : bsearchBest (fun s2 => fitsExtents (L s2) maxW maxH) 6 300 none with
    | none =>
      rw [hres] at hinv
      exact absurd hfit (by simp [hinv.2 s hmem])
    | some sb =>
      rw [hres] at hinv hpure
      rcases hinv with ⟨hmemb, hfb, hmax⟩ | ⟨hbs, _⟩
      · exact ⟨sb, hmemb, hfb, by rw [binarySearchFontSize, hpure], hmax⟩
      · cases hbs

/-- A concrete evaluation of the binary search: with layouts whose width
equals the font size and bounds 40 × 100, the search settles on size 40. -/
theorem binarySearchFontSize_concrete :
    binarySearchFontSize
        (fun s => .ok { lines := [], width := (s : ℚ), height := 0,
                        fontSize := (s : ℚ) })
        (some 40) (some 100) =
      .ok { lines := [], width := (40 : ℚ), height := 0, fontSize := (40 : ℚ) } := by
  simp +decide [binarySearchFontSize, bsearchGo, fitsExtents, leOpt]

/-! ## Line ranges partition the text (C2) -/

/-- The byte ranges of a list of layout lines. -/
def rangesOf (ls : List LayoutLine) : List (Nat × Nat) :=
  ls.map (fun l => (l.rangeStart, l.rangeEnd))

/-- The ranges `rs` chain consecutively from `start`, ending at `fin`. -/
def chainedFrom : Nat → List (Nat × Nat) → Nat → Prop
  | start, [], fin => fin = start
  | start, r :: rest, fin => r.1 = start ∧ chainedFrom r.2 rest fin

theorem chainedFrom_append {start fin : Nat} {rs : List (Nat × Nat)} (s2 : Nat)
    (h : chainedFrom start rs fin) :
    chainedFrom start (rs ++ [(fin, s2)]) s2 := by
  induction rs generalizing start with
  | nil =>
    obtain rfl : fin = start := h
    exact ⟨rfl, rfl⟩
  | cons r rest ih =>
    exact ⟨h.1, ih h.2⟩

theorem chainedFrom_head {start fin : Nat} {rs : List (Nat × Nat)}
    (h : chainedFrom start rs fin) : ∀ r, rs.get? 0 = some r → r.1 = start := by
  cases rs with
  | nil => intro r hr; cases hr
  | cons a rest =>
    intro r hr
    injection hr with hr
    rw [← hr]
    exact h.1

theorem chainedFrom_chain {fin : Nat} {rs : List (Nat × Nat)} :
    ∀ {start}, chainedFrom start rs fin →
      ∀ i a b, rs.get? i = some a → rs.get? (i + 1) = some b → b.1 = a.2 := by
  induction rs with
  | nil => intro start _ i a b ha; cases ha
  | cons r rest ih =>
    intro start h i a b ha hb
    cases i with
    | zero =>
      injection ha with ha
      subst ha
      exact chainedFrom_head h.2 b (by simpa using hb)
    | succ i2 =>
      exact ih h.2 i2 a b ha hb

theorem chainedFrom_last {fin : Nat} {rs : List (Nat × Nat)} :
    ∀ {start}, chainedFrom start rs fin →
      ∀ r, rs.getLast? = some r → r.2 = fin := by
  induction rs with
  | nil => intro start _ r hr; cases hr
  | cons a rest ih =>
    intro start h r hr
    cases hrest : rest with
    | nil =>
      rw [hrest] at hr h
      injection hr with hr
      rw [← hr]
      exact h.2.symm
    | cons b rest2 =>
      rw [hrest] at hr h ih
      exact ih h.2 r (by simpa using hr)

/-- The composition-loop invariant: the finished lines chain from offset 0 up
to the offset at which the current line started. -/
def compInv (st : ComposeState) : Prop :=
  chainedFrom 0 (rangesOf st.lines) st.lineOffset

theorem composeStep_inv (isVert : Bool) (maxExtent : Option ℚ) (text : Str)
    (shape : Str → ShapedRun) (st : ComposeState) (w : BreakOp × BreakOp)
    (h : compInv st) : compInv (composeStep isVert maxExtent text shape st w) := by
  unfold composeStep compInv
  dsimp only
  by_cases hc : ((w.2.isMandatory ||
      if isVert then
        gtOpt (|st.current.advance| +
          |if isVert then
              (shape (List.take (w.2.offset - w.1.offset) (List.drop w.1.offset text))).yAdvance
            else
              (shape (List.take (w.2.offset - w.1.offset) (List.drop w.1.offset text))).xAdvance|)
          maxExtent
      else
        gtOpt (st.current.advance +
          if isVert then
            (shape (List.take (w.2.offset - w.1.offset) (List.drop w.1.offset text))).yAdvance
          else
            (shape (List.take (w.2.offset - w.1.offset) (List.drop w.1.offset text))).xAdvance)
          maxExtent) &&
      !st.current.glyphs.isEmpty) = true
  · rw [if_pos hc]
    show chainedFrom 0 (rangesOf (st.lines ++
      [{ st.current with rangeStart := st.lineOffset, rangeEnd := w.1.offset }]))
      w.1.offset
    unfold rangesOf
    rw [List.map_append]
    exact chainedFrom_append w.1.offset h
  · rw [if_neg hc]
    exact h

theorem composeFold_inv (isVert : Bool) (maxExtent : Option ℚ) (text : Str)
    (shape : Str → ShapedRun) :
    ∀ (ws : List (BreakOp × BreakOp)) (st : ComposeState), compInv st →
      compInv (ws.foldl (composeStep isVert maxExtent text shape) st) := by
  intro ws
  induction ws with
  | nil => intro st h; exact h
  | cons w rest ih =>
    intro st h
    exact ih _ (composeStep_inv isVert maxExtent text shape st w h)

theorem composeStep_current_ne (isVert : Bool) (maxExtent : Option ℚ) (text : Str)
    (shape : Str → ShapedRun) (st : ComposeState) (w : BreakOp × BreakOp)
    (hg : (shape ((text.drop w.1.offset).take (w.2.offset - w.1.offset))).glyphs ≠ []) :
    (composeStep isVert maxExtent text shape st w).current.glyphs ≠ [] := by
  unfold composeStep
  dsimp only
  intro hcon
  have h2 := List.append_eq_nil.mp hcon
  exact hg (List.map_eq_nil.mp h2.2)

theorem composeFold_current_ne (isVert : Bool) (maxExtent : Option ℚ) (text : Str)
    (shape : Str → ShapedRun) :
    ∀ (ws : List (BreakOp × BreakOp)) (st : ComposeState),
      (∀ w ∈ ws, (shape ((text.drop w.1.offset).take (w.2.offset - w.1.offset))).glyphs ≠ []) →
      (ws ≠ [] ∨ st.current.glyphs ≠ []) →
      (ws.foldl (composeStep isVert maxExtent text shape) st).current.glyphs ≠ [] := by
  intro ws
  induction ws with
  | nil =>
    intro st _ hne
    rcases hne with hne | hne
    · exact absurd rfl hne
    · exact hne
  | cons w rest ih =>
    intro st hall _
    exact ih _ (fun w2 hw2 => hall w2 (List.mem_cons_of_mem w hw2))
      (Or.inr (composeStep_current_ne isVert maxExtent text shape st w
        (hall w (List.mem_cons_self w rest))))

theorem composeLines_partition (isVert : Bool) (maxExtent : Option ℚ) (text : Str)
    (shape : Str → ShapedRun) (brs : List BreakOp)
    (hwin : windowPairs brs ≠ [])
    (hsh : ∀ w ∈ windowPairs brs,
      (shape ((text.drop w.1.offset).take (w.2.offset - w.1.offset))).glyphs ≠ []) :
    composeLines isVert maxExtent text shape brs ≠ [] ∧
      chainedFrom 0 (rangesOf (composeLines isVert maxExtent text shape brs))
        text.length := by
  unfold composeLines
  have hinv : compInv ((windowPairs brs).foldl (composeStep isVert maxExtent text shape)
      { lines := [], current := lineDefault, lineOffset := 0 }) :=
    composeFold_inv isVert maxExtent text shape (windowPairs brs) _ rfl
  have hcur : ((windowPairs brs).foldl (composeStep isVert maxExtent text shape)
      { lines := [], current := lineDefault, lineOffset := 0 }).current.glyphs ≠ [] :=
    composeFold_current_ne isVert maxExtent text shape (windowPairs brs) _ hsh
      (Or.inl hwin)
  rw [if_neg (by simpa [List.isEmpty_iff] using hcur)]
  constructor
  · simp
  · unfold rangesOf
    rw [List.map_append]
    exact chainedFrom_append text.length hinv

theorem rangesOf_placeBaselinesGo (isVert : Bool) (ascent lineHeight : ℚ) (n : Nat) :
    ∀ (i : Nat) (ls : List LayoutLine),
      rangesOf (placeBaselinesGo isVert ascent lineHeight n i ls) = rangesOf ls := by
  intro i ls
  induction ls generalizing i with
  | nil => rfl
  | cons l rest ih =>
    unfold placeBaselinesGo rangesOf
    simp only [List.map_cons]
    congr 1
    · cases isVert <;> rfl
    · exact ih (i + 1)

theorem rangesOf_map_shift (ls : List LayoutLine) (dx dy : ℚ) :
    rangesOf (ls.map (fun l =>
      { l with baselineX := l.baselineX - dx, baselineY := l.baselineY - dy })) =
      rangesOf ls := by
  induction ls with
  | nil => rfl
  | cons l rest ih =>
    simp only [rangesOf, List.map_cons] at ih ⊢
    exact congrArg _ ih

theorem runWithSize_ranges (env : LayoutEnv) (text : Str) (fontSize : ℚ) :
    rangesOf (runWithSize env text fontSize).lines =
      rangesOf (composeLines env.mode.isVertical
        (if env.mode.isVertical then env.maxHeight else env.maxWidth) text
        (fun seg => env.shape seg fontSize) (env.lineBreaks text)) := by
  have hplaced : rangesOf (layoutPlacedLines env text fontSize) =
      rangesOf (composeLines env.mode.isVertical
        (if env.mode.isVertical then env.maxHeight else env.maxWidth) text
        (fun seg => env.shape seg fontSize) (env.lineBreaks text)) := by
    unfold layoutPlacedLines placeBaselines
    exact rangesOf_placeBaselinesGo _ _ _ _ 0 _
  unfold runWithSize
  dsimp only
  cases hink : inkBounds env.fontOk env.glyphBoundsAt fontSize
      (layoutPlacedLines env text fontSize) with
  | none => exact hplaced
  | some r =>
    dsimp only
    rw [rangesOf_map_shift]
    exact hplaced

/-- C2: whenever `run_with_size` has at least one line-break window and, as
with a real shaper, every nonempty segment shapes to at least one glyph, the
emitted lines' ranges partition `[0, text.len())` exactly: the first line
starts at 0, each line starts where the previous one ended, and the last line
ends at the text length. -/
theorem run_with_size_partition (env : LayoutEnv) (text : Str) (fontSize : ℚ)
    (htext : text ≠ [])
    (hwin : windowPairs (env.lineBreaks text) ≠ [])
    (hsh : ∀ w ∈ windowPairs (env.lineBreaks text),
      (env.shape ((text.drop w.1.offset).take (w.2.offset - w.1.offset))
        fontSize).glyphs ≠ []) :
    (runWithSize env text fontSize).lines ≠ [] ∧
    (∀ l, (runWithSize env text fontSize).lines.get? 0 = some l →
      l.rangeStart = 0) ∧
    (∀ i a b, (runWithSize env text fontSize).lines.get? i = some a →
      (runWithSize env text fontSize).lines.get? (i + 1) = some b →
      b.rangeStart = a.rangeEnd) ∧
    (∀ l, (runWithSize env text fontSize).lines.getLast? = some l →
      l.rangeEnd = text.length) := by
  have hcomp := composeLines_partition env.mode.isVertical
    (if env.mode.isVertical then env.maxHeight else env.maxWidth) text
    (fun seg => env.shape seg fontSize) (env.lineBreaks text) hwin hsh
  have hranges := runWithSize_ranges env text fontSize
  have hchain : chainedFrom 0 (rangesOf (runWithSize env text fontSize).lines)
      text.length := by
    rw [hranges]
    exact hcomp.2
  refine ⟨?_, ?_, ?_, ?_⟩
  · intro hnil
    have h1 : rangesOf (runWithSize env text fontSize).lines = [] := by
      rw [hnil]
      rfl
    rw [hranges] at h1
    exact hcomp.1 (List.map_eq_nil.mp h1)
  · intro l hl
    have h1 : (rangesOf (runWithSize env text fontSize).lines).get? 0 =
        some (l.rangeStart, l.rangeEnd) := by
      unfold rangesOf
      rw [List.get?_map, hl]
      rfl
    exact chainedFrom_head hchain _ h1
  · intro i a b ha hb
    have h1 : (rangesOf (runWithSize env text fontSize).lines).get? i =
        some (a.rangeStart, a.rangeEnd) := by
      unfold rangesOf
      rw [List.get?_map, ha]
      rfl
    have h2 : (rangesOf (runWithSize env text fontSize).lines).get? (i + 1) =
        some (b.rangeStart, b.rangeEnd) := by
      unfold rangesOf
      rw [List.get?_map, hb]
      rfl
    exact chainedFrom_chain hchain i _ _ h1 h2
  · intro l hl
    have h1 : (rangesOf (runWithSize env text fontSize).lines).getLast? =
        some (l.rangeStart, l.rangeEnd) := by
      unfold rangesOf
      rw [List.getLast?_map, hl]
      rfl
    exact chainedFrom_last hchain _ h1

/-- A fixed concrete environment used by the layout witnesses: a two-character
text with a mandatory break after the first character, a shaper that emits one
unit-advance glyph per segment, and no per-glyph ink bounds. -/
def envC : LayoutEnv :=
  { mode := WritingMode.horizontal,
    maxWidth := none,
    maxHeight := none,
    metricsAt := fun _ => { ascent := 10, descent := -2, leading := 1 },
    lineBreaks := fun t => [⟨0, false⟩, ⟨1, true⟩, ⟨t.length, false⟩],
    shape := fun _ _ =>
      { glyphs := [{ glyphId := 7, fontId := 0, cluster := 0, xAdvance := 1,
                     yAdvance := 0, xOffset := 0, yOffset := 0 }],
        xAdvance := 1, yAdvance := 0 },
    fontOk := fun _ => false,
    glyphBoundsAt := fun _ _ _ => none }

/-- Witness for C2 on the concrete environment and the text `ab`. -/
theorem run_with_size_partition_witness :
    (runWithSize envC ['a', 'b'] 16).lines ≠ [] ∧
    (∀ l, (runWithSize envC ['a', 'b'] 16).lines.get? 0 = some l →
      l.rangeStart = 0) ∧
    (∀ i a b, (runWithSize envC ['a', 'b'] 16).lines.get? i = some a →
      (runWithSize envC ['a', 'b'] 16).lines.get? (i + 1) = some b →
      b.rangeStart = a.rangeEnd) ∧
    (∀ l, (runWithSize envC ['a', 'b'] 16).lines.getLast? = some l →
      l.rangeEnd = (['a', 'b'] : Str).length) :=
  run_with_size_partition envC ['a', 'b'] 16 (by decide) (by decide) (by decide)

/-! ## Baseline geometry (C4) -/

/-- The composed (not yet baseline-placed) lines of `run_with_size`. -/
def layoutComposed (env : LayoutEnv) (text : Str) (fontSize : ℚ) :
    List LayoutLine :=
  composeLines env.mode.isVertical
    (if env.mode.isVertical then env.maxHeight else env.maxWidth) text
    (fun seg => env.shape seg fontSize) (env.lineBreaks text)

theorem layoutPlacedLines_eq (env : LayoutEnv) (text : Str) (fontSize : ℚ) :
    layoutPlacedLines env text fontSize =
      placeBaselinesGo env.mode.isVertical (env.metricsAt fontSize).ascent
        (lineHeightOf env fontSize) (layoutComposed env text fontSize).length 0
        (layoutComposed env text fontSize) := rfl

theorem placeBaselinesGo_get (isVert : Bool) (ascent lineHeight : ℚ) (n : Nat) :
    ∀ (j i : Nat) (ls : List LayoutLine),
      (placeBaselinesGo isVert ascent lineHeight n j ls).get? i =
        (ls.get? i).map (fun l =>
          if isVert then
            { l with
              baselineX := (((n - 1 : Nat) : ℚ) - (((j + i : Nat)) : ℚ)) * lineHeight
                + lineHeight * (1 / 2),
              baselineY := ascent }
          else
            { l with
              baselineX := 0,
              baselineY := ascent + (((j + i : Nat)) : ℚ) * lineHeight }) := by
  intro j i ls
  induction ls generalizing j i with
  | nil => cases i <;> rfl
  | cons l rest ih =>
    cases i with
    | zero =>
      show some _ = some _
      rw [Nat.add_zero]
    | succ i2 =>
      show (placeBaselinesGo isVert ascent lineHeight n (j + 1) rest).get? i2 = _
      rw [ih (j + 1) i2]
      have harith : j + (i2 + 1) = (j + 1) + i2 := by omega
      rw [harith]
      rfl

/-- The lines of `run_with_size` are the composed lines with baselines set by
the placement formulas of layout.rs:331-343, all shifted by a common offset
`(dx, dy)` (zero when the ink-bounds pass finds nothing, otherwise the padded
ink minimum). -/
theorem runWithSize_lines_get (env : LayoutEnv) (text : Str) (fontSize : ℚ) :
    ∃ dx dy : ℚ, ∀ i,
      (runWithSize env text fontSize).lines.get? i =
        ((layoutComposed env text fontSize).get? i).map (fun l =>
          if env.mode.isVertical then
            { l with
              baselineX := ((((layoutComposed env text fontSize).length - 1 : Nat) : ℚ)
                  - (i : ℚ)) * lineHeightOf env fontSize
                + lineHeightOf env fontSize * (1 / 2) + dx,
              baselineY := (env.metricsAt fontSize).ascent + dy }
          else
            { l with
              baselineX := 0 + dx,
              baselineY := (env.metricsAt fontSize).ascent
                + (i : ℚ) * lineHeightOf env fontSize + dy }) := by
  unfold runWithSize
  dsimp only
  cases hink : inkBounds env.fontOk env.glyphBoundsAt fontSize
      (layoutPlacedLines env text fontSize) with
  | none =>
    refine ⟨0, 0, fun i => ?_⟩
    show (layoutPlacedLines env text fontSize).get? i = _
    rw [layoutPlacedLines_eq, placeBaselinesGo_get]
    cases hco : (layoutComposed env text fontSize).get? i with
    | none => rfl
    | some l =>
      show some _ = some _
      congr 1
      cases hv : env.mode.isVertical
      · simp only [Bool.false_eq_true, if_false]
        have h1 : ((0 + i : Nat) : ℚ) = (i : ℚ) := by push_cast; ring
        rw [h1]
        have h2 : (0 : ℚ) + 0 = 0 := by ring
        have h3 : (env.metricsAt fontSize).ascent + (i : ℚ) * lineHeightOf env fontSize
            = (env.metricsAt fontSize).ascent + (i : ℚ) * lineHeightOf env fontSize + 0 := by
          ring
        rw [h2, ← h3]
      · simp only [if_true]
        have h1 : ((0 + i : Nat) : ℚ) = (i : ℚ) := by push_cast; ring
        rw [h1]
        have h2 : ((((layoutComposed env text fontSize).length - 1 : Nat) : ℚ) - (i : ℚ))
              * lineHeightOf env fontSize + lineHeightOf env fontSize * (1 / 2) + 0
            = ((((layoutComposed env text fontSize).length - 1 : Nat) : ℚ) - (i : ℚ))
              * lineHeightOf env fontSize + lineHeightOf env fontSize * (1 / 2) := by
          ring
        have h3 : (env.metricsAt fontSize).ascent + 0
            = (env.metricsAt fontSize).ascent := by ring
        rw [h2, h3]
  | some r =>
    refine ⟨-(r.xMin - 1), -(r.yMin - 1), fun i => ?_⟩
    show ((layoutPlacedLines env text fontSize).map _).get? i = _
    rw [List.get?_map, layoutPlacedLines_eq, placeBaselinesGo_get]
    cases hco : (layoutComposed env text fontSize).get? i with
    | none => rfl
    | some l =>
      show some _ = some _
      congr 1
      cases hv : env.mode.isVertical
      · simp only [Bool.false_eq_true, if_false]
        have h1 : ((0 + i : Nat) : ℚ) = (i : ℚ) := by push_cast; ring
        rw [h1]
        show ({ l with
                baselineX := (0 : ℚ) - (r.xMin - 1),
                baselineY := (env.metricsAt fontSize).ascent
                  + (i : ℚ) * lineHeightOf env fontSize - (r.yMin - 1) } : LayoutLine) = _
        have h2 : (0 : ℚ) - (r.xMin - 1) = 0 + -(r.xMin - 1) := by ring
        have h3 : (env.metricsAt fontSize).ascent + (i : ℚ) * lineHeightOf env fontSize
              - (r.yMin - 1)
            = (env.metricsAt fontSize).ascent + (i : ℚ) * lineHeightOf env fontSize
              + -(r.yMin - 1) := by ring
        rw [h2, h3]
      · simp only [if_true]
        have h1 : ((0 + i : Nat) : ℚ) = (i : ℚ) := by push_cast; ring
        rw [h1]
        show ({ l with
                baselineX := ((((layoutComposed env text fontSize).length - 1 : Nat) : ℚ)
                    - (i : ℚ)) * lineHeightOf env fontSize
                  + lineHeightOf env fontSize * (1 / 2) - (r.xMin - 1),
                baselineY := (env.metricsAt fontSize).ascent - (r.yMin - 1) } : LayoutLine)
            = _
        have h2 : ((((layoutComposed env text fontSize).length - 1 : Nat) : ℚ) - (i : ℚ))
              * lineHeightOf env fontSize + lineHeightOf env fontSize * (1 / 2)
              - (r.xMin - 1)
            = ((((layoutComposed env text fontSize).length - 1 : Nat) : ℚ) - (i : ℚ))
              * lineHeightOf env fontSize + lineHeightOf env fontSize * (1 / 2)
              + -(r.xMin - 1) := by ring
        have h3 : (env.metricsAt fontSize).ascent - (r.yMin - 1)
            = (env.metricsAt fontSize).ascent + -(r.yMin - 1) := by ring
        rw [h2, h3]

/-- C4: in every returned layout, Horizontal lines share one baseline x and
consecutive baseline y's differ by exactly
`line_height = max(ascent + descent + leading, font_size)`; VerticalRl
columns share one baseline y, consecutive baseline x's decrease by exactly
`line_height` (so the first column has the largest x); and the pre-shift
placement formulas are `(0, ascent + i·lh)` and
`((N−1−i)·lh + lh·0.5, ascent)`.  The ink-bounds translation shifts all
baselines uniformly, so the relations survive it. -/
theorem baseline_placement_spec (env : LayoutEnv) (text : Str) (fontSize : ℚ)
    (hfs : 0 < fontSize) :
    (env.mode = WritingMode.horizontal →
      (∀ i j a b, (runWithSize env text fontSize).lines.get? i = some a →
        (runWithSize env text fontSize).lines.get? j = some b →
        a.baselineX = b.baselineX) ∧
      (∀ i a b, (runWithSize env text fontSize).lines.get? i = some a →
        (runWithSize env text fontSize).lines.get? (i + 1) = some b →
        b.baselineY - a.baselineY = lineHeightOf env fontSize)) ∧
    (env.mode = WritingMode.verticalRl →
      (∀ i j a b, (runWithSize env text fontSize).lines.get? i = some a →
        (runWithSize env text fontSize).lines.get? j = some b →
        a.baselineY = b.baselineY) ∧
      (∀ i a b, (runWithSize env text fontSize).lines.get? i = some a →
        (runWithSize env text fontSize).lines.get? (i + 1) = some b →
        a.baselineX - b.baselineX = lineHeightOf env fontSize) ∧
      (∀ i a b, (runWithSize env text fontSize).lines.get? i = some a →
        (runWithSize env text fontSize).lines.get? 0 = some b →
        a.baselineX ≤ b.baselineX)) ∧
    (∀ (asc lh : ℚ) (ls : List LayoutLine) (i : Nat) (l : LayoutLine),
      ls.get? i = some l →
      (placeBaselines false asc lh ls).get? i =
        some { l with baselineX := 0, baselineY := asc + (i : ℚ) * lh } ∧
      (placeBaselines true asc lh ls).get? i =
        some { l with
          baselineX := (((ls.length - 1 : Nat) : ℚ) - (i : ℚ)) * lh + lh * (1 / 2),
          baselineY := asc }) := by
  obtain ⟨dx, dy, hget⟩ := runWithSize_lines_get env text fontSize
  have hlh : 0 < lineHeightOf env fontSize :=
    lt_of_lt_of_le hfs (le_max_right _ _)
  refine ⟨?_, ?_, ?_⟩
  · intro hmode
    rw [hmode] at hget
    simp only [WritingMode.isVertical, Bool.false_eq_true, if_false] at hget
    have hfields : ∀ i a, (runWithSize env text fontSize).lines.get? i = some a →
        a.baselineX = 0 + dx ∧
        a.baselineY = (env.metricsAt fontSize).ascent
          + (i : ℚ) * lineHeightOf env fontSize + dy := by
      intro i a ha
      rw [hget i] at ha
      obtain ⟨c, _, hca⟩ := Option.map_eq_some'.mp ha
      rw [← hca]
      exact ⟨rfl, rfl⟩
    constructor
    · intro i j a b ha hb
      rw [(hfields i a ha).1, (hfields j b hb).1]
    · intro i a b ha hb
      rw [(hfields i a ha).2, (hfields (i + 1) b hb).2]
      push_cast
      ring
  · intro hmode
    rw [hmode] at hget
    simp only [WritingMode.isVertical, if_true] at hget
    have hfields : ∀ i a, (runWithSize env text fontSize).lines.get? i = some a →
        a.baselineX = ((((layoutComposed env text fontSize).length - 1 : Nat) : ℚ)
            - (i : ℚ)) * lineHeightOf env fontSize
          + lineHeightOf env fontSize * (1 / 2) + dx ∧
        a.baselineY = (env.metricsAt fontSize).ascent + dy := by
      intro i a ha
      rw [hget i] at ha
      obtain ⟨c, _, hca⟩ := Option.map_eq_some'.mp ha
      rw [← hca]
      exact ⟨rfl, rfl⟩
    refine ⟨?_, ?_, ?_⟩
    · intro i j a b ha hb
      rw [(hfields i a ha).2, (hfields j b hb).2]
    · intro i a b ha hb
      rw [(hfields i a ha).1, (hfields (i + 1) b hb).1]
      push_cast
      ring
    · intro i a b ha hb
      rw [(hfields i a ha).1, (hfields 0 b hb).1]
      have hprod : 0 ≤ (i : ℚ) * lineHeightOf env fontSize :=
        mul_nonneg (by positivity) (le_of_lt hlh)
      have hexp : ∀ z : ℚ,
          (((((layoutComposed env text fontSize).length - 1 : Nat) : ℚ) - z)
            * lineHeightOf env fontSize)
          = (((layoutComposed env text fontSize).length - 1 : Nat) : ℚ)
              * lineHeightOf env fontSize - z * lineHeightOf env fontSize := by
        intro z
        ring
      rw [hexp, hexp]
      push_cast
      linarith
  · intro asc lh ls i l hl
    have hz : (0 + i : Nat) = i := Nat.zero_add i
    constructor
    · show (placeBaselinesGo false asc lh ls.length 0 ls).get? i = _
      rw [placeBaselinesGo_get, hl]
      show some _ = some _
      congr 1
      simp only [Bool.false_eq_true, if_false, hz]
    · show (placeBaselinesGo true asc lh ls.length 0 ls).get? i = _
      rw [placeBaselinesGo_get, hl]
      show some _ = some _
      congr 1
      simp only [if_true, hz]

/-- Witness for C4 at the concrete horizontal environment. -/
theorem baseline_placement_spec_witness :
    (envC.mode = WritingMode.horizontal →
      (∀ i j a b, (runWithSize envC ['a', 'b'] 16).lines.get? i = some a →
        (runWithSize envC ['a', 'b'] 16).lines.get? j = some b →
        a.baselineX = b.baselineX) ∧
      (∀ i a b, (runWithSize envC ['a', 'b'] 16).lines.get? i = some a →
        (runWithSize envC ['a', 'b'] 16).lines.get? (i + 1) = some b →
        b.baselineY - a.baselineY = lineHeightOf envC 16)) ∧
    (envC.mode = WritingMode.verticalRl →
      (∀ i j a b, (runWithSize envC ['a', 'b'] 16).lines.get? i = some a →
        (runWithSize envC ['a', 'b'] 16).lines.get? j = some b →
        a.baselineY = b.baselineY) ∧
      (∀ i a b, (runWithSize envC ['a', 'b'] 16).lines.get? i = some a →
        (runWithSize envC ['a', 'b'] 16).lines.get? (i + 1) = some b →
        a.baselineX - b.baselineX = lineHeightOf envC 16) ∧
      (∀ i a b, (runWithSize envC ['a', 'b'] 16).lines.get? i = some a →
        (runWithSize envC ['a', 'b'] 16).lines.get? 0 = some b →
        a.baselineX ≤ b.baselineX)) ∧
    (∀ (asc lh : ℚ) (ls : List LayoutLine) (i : Nat) (l : LayoutLine),
      ls.get? i = some l →
      (placeBaselines false asc lh ls).get? i =
        some { l with baselineX := 0, baselineY := asc + (i : ℚ) * lh } ∧
      (placeBaselines true asc lh ls).get? i =
        some { l with
          baselineX := (((ls.length - 1 : Nat) : ℚ) - (i : ℚ)) * lh + lh * (1 / 2),
          baselineY := asc }) :=
  baseline_placement_spec envC ['a', 'b'] 16 (by decide)

/-! ## Ink-bounds recovery (C8) -/

theorem inkStep_mask (fontOk : Nat → Bool) (boundsAt : ℚ → Nat → Nat → Option GlyphRect)
    (fontSize : ℚ) (st : Option GlyphRect × ℚ × ℚ) (g : PositionedGlyph) :
    inkStep fontOk boundsAt fontSize st g =
      inkStep (fun _ => true)
        (fun sz f gid => if fontOk f then boundsAt sz f gid else none) fontSize st g := by
  unfold inkStep
  by_cases hok : fontOk g.fontId
  · simp [hok]
  · simp [hok]

theorem inkFold_rect_of_skip (boundsAt : ℚ → Nat → Nat → Option GlyphRect)
    (fontSize : ℚ) :
    ∀ (glyphs : List PositionedGlyph) (rect : Option GlyphRect) (x y : ℚ),
      (glyphs.foldl (inkStep (fun _ => false) boundsAt fontSize) (rect, x, y)).1 = rect := by
  intro glyphs
  induction glyphs with
  | nil => intro rect x y; rfl
  | cons g gs ih =>
    intro rect x y
    exact ih rect (x + g.xAdvance) (y - g.yAdvance)

theorem inkBounds_none_of_noFont (boundsAt : ℚ → Nat → Nat → Option GlyphRect)
    (fontSize : ℚ) (lines : List LayoutLine) :
    inkBounds (fun _ => false) boundsAt fontSize lines = none := by
  unfold inkBounds
  induction lines with
  | nil => rfl
  | cons l rest ih =>
    show List.foldl _ ((l.glyphs.foldl _ (none, l.baselineX, l.baselineY)).1) rest = none
    rw [inkFold_rect_of_skip]
    exact ih

/-- C8: a glyph whose font's glyph-metrics provider cannot be obtained behaves
exactly like a glyph whose bounds query returns `None` — it contributes
nothing to the ink rectangle (first conjunct); the pen nevertheless advances
by `(+x_advance, -y_advance)` across every glyph, contributing or not (second
conjunct); such glyphs never make the layout call fail, and when no glyph
yields finite bounds `run_with_size` falls back to the coarse advance-based
`compute_bounds` extents (third conjunct). -/
theorem ink_bounds_recovery :
    (∀ (fontOk : Nat → Bool) (boundsAt : ℚ → Nat → Nat → Option GlyphRect)
        (fontSize : ℚ) (lines : List LayoutLine),
      inkBounds fontOk boundsAt fontSize lines =
        inkBounds (fun _ => true)
          (fun sz f gid => if fontOk f then boundsAt sz f gid else none)
          fontSize lines) ∧
    (∀ (fontOk : Nat → Bool) (boundsAt : ℚ → Nat → Nat → Option GlyphRect)
        (fontSize : ℚ) (rect0 : Option GlyphRect) (x0 y0 : ℚ)
        (glyphs : List PositionedGlyph),
      (glyphs.foldl (inkStep fontOk boundsAt fontSize) (rect0, x0, y0)).2 =
        (x0 + (glyphs.map PositionedGlyph.xAdvance).sum,
         y0 - (glyphs.map PositionedGlyph.yAdvance).sum)) ∧
    (∀ (env : LayoutEnv) (text : Str) (fontSize : ℚ),
      inkBounds env.fontOk env.glyphBoundsAt fontSize
          (layoutPlacedLines env text fontSize) = none →
      runWithSize env text fontSize =
        { lines := layoutPlacedLines env text fontSize,
          width := (computeBounds env.mode.isVertical
            (layoutPlacedLines env text fontSize) (lineHeightOf env fontSize)
            (-(env.metricsAt fontSize).descent)).1,
          height := (computeBounds env.mode.isVertical
            (layoutPlacedLines env text fontSize) (lineHeightOf env fontSize)
            (-(env.metricsAt fontSize).descent)).2,
          fontSize := fontSize }) := by
  refine ⟨?_, ?_, ?_⟩
  · intro fontOk boundsAt fontSize lines
    have hstep : inkStep fontOk boundsAt fontSize =
        inkStep (fun _ => true)
          (fun sz f gid => if fontOk f then boundsAt sz f gid else none) fontSize :=
      funext fun st => funext fun g => inkStep_mask fontOk boundsAt fontSize st g
    unfold inkBounds
    rw [hstep]
  · intro fontOk boundsAt fontSize rect0 x0 y0 glyphs
    induction glyphs generalizing rect0 x0 y0 with
    | nil => simp
    | cons g gs ih =>
      have hstep : inkStep fontOk boundsAt fontSize (rect0, x0, y0) g =
          ((inkStep fontOk boundsAt fontSize (rect0, x0, y0) g).1,
            x0 + g.xAdvance, y0 - g.yAdvance) := rfl
      show (gs.foldl (inkStep fontOk boundsAt fontSize)
        (inkStep fontOk boundsAt fontSize (rect0, x0, y0) g)).2 = _
      rw [hstep, ih]
      simp only [List.map_cons, List.sum_cons, Prod.mk.injEq]
      constructor <;> ring
  · intro env text fontSize hnone
    unfold runWithSize
    dsimp only
    rw [hnone]

/-- Witness for C8's fallback clause at the concrete environment, whose
glyph-metrics providers all fail. -/
theorem ink_bounds_recovery_witness :
    runWithSize envC ['a', 'b'] 16 =
      { lines := layoutPlacedLines envC ['a', 'b'] 16,
        width := (computeBounds envC.mode.isVertical
          (layoutPlacedLines envC ['a', 'b'] 16) (lineHeightOf envC 16)
          (-(envC.metricsAt 16).descent)).1,
        height := (computeBounds envC.mode.isVertical
          (layoutPlacedLines envC ['a', 'b'] 16) (lineHeightOf envC 16)
          (-(envC.metricsAt 16).descent)).2,
        fontSize := 16 } :=
  ink_bounds_recovery.2.2 envC ['a', 'b'] 16
    (inkBounds_none_of_noFont envC.glyphBoundsAt 16
      (layoutPlacedLines envC ['a', 'b'] 16))

end Koharu
